import Mathlib

/-!
Shallow embedding of the capslock capability-analyzer core
(`analyzer/analyzer.go`, `analyzer/env.go`, `testpkgs/getenv/getenv.go`)
together with proofs about its specification.

Modelling conventions:
* Strings are lists of characters (`Str`).
* Call-graph nodes are natural-number identities; the number also serves as
  the deterministic node sort key of spec §4.8 (`funcCompare` is a total
  order on functions; its implementation is not part of the given sources,
  so the key is taken abstractly as `Nat`).
* A Go map is modelled by its lookup function; where the source iterates a
  map, the iteration is an explicit list whose order is arbitrary, and the
  determinism theorem quantifies over permutations of those lists.
* Loops whose termination is ensured by a visited set in the source are
  given an explicit fuel parameter; theorems hold for every fuel.
-/

/-- Strings, as lists of characters. -/
abbrev Str := List Char

/-- Conversion from Lean string literals. -/
def str (s : String) : Str := s.data

/-- A call-graph node identity (also the deterministic sort key, spec §4.8). -/
abbrev Node := Nat

/-- A call edge (`callgraph.Edge`): directed caller → callee.  Call-site
positions are not modelled; parallel edges may still occur as duplicate
list entries. -/
structure Edge where
  caller : Node
  callee : Node
deriving DecidableEq, Repr

/-- The `Capability` enum of `proto/capability.proto`. -/
inductive Capability where
  | unspecified
  | safe
  | files
  | network
  | runtime
  | readSystemState
  | modifySystemState
  | operatingSystem
  | systemCalls
  | arbitraryExecution
  | cgo
  | unanalyzed
  | unsafePointer
  | reflect
  | exec
  | readEnvironment
deriving DecidableEq, Repr

/-- The numeric value of each enum constant in `capability.proto`. -/
def capToNat : Capability → Nat
  | .unspecified => 0
  | .safe => 1
  | .files => 2
  | .network => 3
  | .runtime => 4
  | .readSystemState => 5
  | .modifySystemState => 6
  | .operatingSystem => 7
  | .systemCalls => 8
  | .arbitraryExecution => 9
  | .cgo => 10
  | .unanalyzed => 11
  | .unsafePointer => 12
  | .reflect => 13
  | .exec => 14
  | .readEnvironment => 15

/-- All capabilities, in ascending enum order. -/
def Capability.all : List Capability :=
  [.unspecified, .safe, .files, .network, .runtime, .readSystemState,
   .modifySystemState, .operatingSystem, .systemCalls, .arbitraryExecution,
   .cgo, .unanalyzed, .unsafePointer, .reflect, .exec, .readEnvironment]

/-- The `CapabilityType` enum of `capability.proto`. -/
inductive CapabilityType where
  | unspecifiedType
  | direct
  | transitive
deriving DecidableEq, Repr

/-- Output granularity (spec §6; the `Granularity` values referenced at
`analyzer.go` lines 86-91 and 141; its definition is in a repository file
not included under src, modelled from the spec: granularity is one of
function (the default), package, intermediate, plus the unset zero value). -/
inductive Granularity where
  | unset
  | function
  | package
  | intermediate
deriving DecidableEq, Repr

/-- The classifier oracle (`analyzer.go` lines 43-58).  Package paths and
function symbols are `Str`.  `stdlibPrefixes` is modelled from the spec:
standard-library packages are identified by a fixed prefix list supplied
by the classifier oracle (spec §4.7, glossary). -/
structure Classifier where
  functionCategory : Str → Str → Capability
  includeCall : Edge → Bool
  stdlibPrefixes : List Str

/-- `Config` (`analyzer.go` lines 24-39). -/
structure Config where
  classifier : Classifier
  disableBuiltin : Bool
  granularity : Granularity
  capabilitySet : Option (List Capability)
  omitPaths : Bool

/-- One SSA instruction, restricted to the shapes examined by
`getExtraNodesByCapability` (`analyzer.go` lines 519-557); all other
instruction kinds are `other`.  SSA values are numbered by `Nat`.
For `store`, `pointeeHasReflectValue` is the outcome of the external type
query `types.Unalias(dest.Type())` being a pointer whose element type
`containsReflectValue`. -/
inductive Instr where
  | indexAddr (val x : Nat)
  | fieldAddr (val x : Nat)
  | store (addr : Nat) (pointeeHasReflectValue : Bool)
  | other
deriving DecidableEq, Repr

/-- An SSA function body: `f.Locals` (value, Heap flag) and the
instructions of `f.Blocks`. -/
structure FnBody where
  locals : List (Nat × Bool)
  blocks : List (List Instr)
deriving DecidableEq, Repr

/-- The data carried by `v.Func` that the analyzer reads.  `pkg` is
`Package().Pkg.Path()` (`none` when `Package()` is nil), `pkgName` is
`Package().Pkg.Name()` (meaningful when `pkg` is present), `name` is
`Func.String()`.  `originPkg`/`originName` describe `Func.Origin()`
(`originPkg = none` models `Origin() == nil` or an origin without a
package).  `synthetic` models `f.Synthetic != ""`; `body = none` models
`f.Blocks == nil`. -/
structure FnData where
  pkg : Option Str
  pkgName : Str
  name : Str
  originPkg : Option Str
  originName : Str
  synthetic : Bool
  body : Option FnBody
deriving DecidableEq

/-- The call graph.  `nodes` is the iteration order of the Go map
`graph.Nodes` (arbitrary), `fn` its per-node function (`none` models a nil
`v.Func`), `ins` the fixed incoming-edge slices `v.In`. -/
structure Graph where
  nodes : List Node
  fn : Node → Option FnData
  ins : Node → List Edge

/-- `byFunction` sorting (`analyzer.go` lines 289, 354, 737): nodes are
sorted by their deterministic key (spec §4.8). -/
def sortNodes (l : List Node) : List Node := l.insertionSort (· ≤ ·)

/-- `byCaller` edge ordering, modelled from the spec (§4.8): edges compare
by caller key, then callee key. -/
def edgeLe (a b : Edge) : Prop :=
  a.caller < b.caller ∨ (a.caller = b.caller ∧ a.callee ≤ b.callee)

instance : DecidableRel edgeLe := fun a b => by
  unfold edgeLe; exact inferInstance

/-- `byCaller` sorting (`analyzer.go` lines 310, 761). -/
def sortEdges (l : List Edge) : List Edge := l.insertionSort edgeLe

/-- Capabilities compare by their enum value (`analyzer.go` line 722). -/
def capLe (a b : Capability) : Prop := capToNat a ≤ capToNat b

instance : DecidableRel capLe := fun a b => by
  unfold capLe; exact inferInstance

/-- Ascending capability sort (`analyzer.go` line 722). -/
def sortCaps (l : List Capability) : List Capability := l.insertionSort capLe

/-! ## Node classification (`getNodeCapabilities`, `analyzer.go` lines 634-668) -/

/-- The category the classifier assigns to a node (`analyzer.go` lines
639-660): a node without a function is skipped; a function with a package
is classified by its own package path and symbol; otherwise the origin
(the uninstantiated generic function) is used; a node with neither is
skipped.  `none` models "skipped". -/
def nodeCategory (g : Graph) (cl : Classifier) (v : Node) : Option Capability :=
  match g.fn v with
  | none => none
  | some f =>
    match f.pkg with
    | some p => some (cl.functionCategory p f.name)
    | none =>
      match f.originPkg with
      | none => none
      | some op => some (cl.functionCategory op f.originName)

/-- `getNodeCapabilities` (`analyzer.go` lines 634-668).  The loop appends
each node to `safe` when its category is safe, and to
`nodesByCapability[c]` when its category is a capability `c` other than
safe and unspecified; appending in iteration order is `List.filterMap`.
The per-capability map has entries only for such `c` (so it is empty at
safe and unspecified). -/
def getNodeCapabilities (g : Graph) (cl : Classifier) :
    List Node × (Capability → List Node) :=
  (g.nodes.filterMap (fun v =>
      if nodeCategory g cl v = some .safe then some v else none),
   fun c =>
     if c = .safe ∨ c = .unspecified then []
     else g.nodes.filterMap (fun v =>
       if nodeCategory g cl v = some c then some v else none))

/-! ## Derived-capability scanners (`getExtraNodesByCapability`,
`analyzer.go` lines 506-578) -/

/-- One step of the scan over a function's instructions
(`analyzer.go` lines 519-557).  The state is the set of local
(non-escaping) SSA values and whether a store of a reflect-containing
value to a non-local destination has been seen. -/
def scanStep (acc : List Nat × Bool) : Instr → List Nat × Bool
  | .indexAddr val x =>
      (if acc.1.contains x then val :: acc.1 else acc.1, acc.2)
  | .fieldAddr val x =>
      (if acc.1.contains x then val :: acc.1 else acc.1, acc.2)
  | .store addr pointeeHasReflectValue =>
      (acc.1, acc.2 || (!acc.1.contains addr && pointeeHasReflectValue))
  | .other => acc

/-- Whether the reflect-escape pass attributes the reflect capability to a
function (`analyzer.go` lines 511-557): the local set starts from the
non-Heap `f.Locals` and grows through `IndexAddr`/`FieldAddr` of locals;
a `Store` to a destination outside the local set whose pointee type
contains `reflect.Value` is flagged. -/
def fnStoresReflect (f : FnData) : Bool :=
  match f.body with
  | none => false
  | some b =>
    let locals0 := b.locals.filterMap (fun lh => if lh.2 then none else some lh.1)
    (b.blocks.foldl (fun acc blk => blk.foldl scanStep acc) (locals0, false)).2

/-- `getExtraNodesByCapability` (`analyzer.go` lines 506-578).
`uFns` is the result of `findUnsafePointerConversions` (the AST and type
information it consumes belong to the external loader, so its result is a
parameter here, exactly as it is a parameter of the Go function).  The
reflect loop iterates `allFunctions` and keeps functions that have a graph
node; functions without a node contribute nothing, so it is modelled over
the graph's own function entries.  The assembly loop attributes
arbitrary-execution to nodes whose function has no blocks and is not
synthetic. -/
def getExtraNodesByCapability (g : Graph) (uFns : List Node) :
    Capability → List Node
  | .reflect => g.nodes.filterMap (fun v =>
      match g.fn v with
      | some f => if fnStoresReflect f then some v else none
      | none => none)
  | .unsafePointer => uFns.filter (fun v => g.nodes.contains v)
  | .arbitraryExecution => g.nodes.filterMap (fun v =>
      match g.fn v with
      | some f => if f.body.isNone && !f.synthetic then some v else none
      | none => none)
  | _ => []

/-! ## Capability merger (`mergeCapabilities`, `analyzer.go` lines 670-699) -/

/-- `mergeCapabilities` (`analyzer.go` lines 670-699): gather
`allNodesWithExplicitCapability` as the union of the explicit sets (a Go
set; only membership is ever used of it), then add each derived
`(cap, node)` unless the node already has an explicit category.  The Go
map has entries exactly for the capabilities with a nonempty set, and
per-capability additions happen in derived-set iteration order. -/
def mergeCapabilities (em xm : Capability → List Node) :
    (Capability → List Node) × List Node :=
  let explicitSet := Capability.all.flatMap em
  (fun c => em c ++ (xm c).filter (fun v => !explicitSet.contains v),
   explicitSet)

/-! ## The pipeline up to the merged sets
(`getPackageNodesWithCapability`, `analyzer.go` lines 492-504, followed by
the merge at lines 715-716) -/

/-- The safe set produced by classification. -/
def safeOf (g : Graph) (cfg : Config) : List Node :=
  (getNodeCapabilities g cfg.classifier).1

/-- The explicit per-capability sets produced by classification. -/
def explicitOf (g : Graph) (cfg : Config) : Capability → List Node :=
  (getNodeCapabilities g cfg.classifier).2

/-- The derived sets (`extraNodesByCapability`); empty when
`DisableBuiltin` is set (`analyzer.go` lines 500-502). -/
def extraOf (g : Graph) (uFns : List Node) (cfg : Config) :
    Capability → List Node :=
  if cfg.disableBuiltin then (fun _ => []) else getExtraNodesByCapability g uFns

/-- `allNodesWithExplicitCapability` for the pipeline. -/
def explicitSetOf (g : Graph) (uFns : List Node) (cfg : Config) : List Node :=
  (mergeCapabilities (explicitOf g cfg) (extraOf g uFns cfg)).2

/-- The merged per-capability sets for the pipeline. -/
def mergedOf (g : Graph) (uFns : List Node) (cfg : Config) :
    Capability → List Node :=
  (mergeCapabilities (explicitOf g cfg) (extraOf g uFns cfg)).1

/-! ## Reverse BFS engine (`forEachPath`, `analyzer.go` lines 701-789) -/

/-- BFS state per node: `none` is unvisited; `some none` models the zero
`bfsState{}` of a BFS root; `some (some e)` a node first reached via the
incoming edge `e` (`bfsState{edge: e}`). -/
abbrev BfsMap := Node → Option (Option Edge)

/-- Setting `visited[k]` to the state with edge `s`. -/
def mapInsert (m : BfsMap) (k : Node) (s : Option Edge) : BfsMap :=
  fun x => if x = k then some s else m x

/-- One invocation of the aggregator callback `fn` (`analyzer.go` lines
712-713): the capability, the BFS state map at the time of the call, and
the reported node. -/
structure CallRec where
  cap : Capability
  state : BfsMap
  node : Node

/-- The initial BFS queue for one capability (`analyzer.go` lines 729-737):
the capability's merged nodes minus the safe ones, sorted `byFunction`. -/
def capRoots (mergedc : List Node) (safeP : Node → Bool) : List Node :=
  sortNodes (mergedc.filter (fun v => !safeP v))

/-- The initial visited map (`analyzer.go` line 735): every root maps to
the zero `bfsState{}`.  (The source fills it during the pre-sort iteration
of the same set; the resulting map is the same.) -/
def vis0Of (q : List Node) : BfsMap :=
  fun v => if q.contains v then some none else none

/-- The root-reporting phase (`analyzer.go` lines 738-749): each queued
root whose function's package exists and is queried is reported with the
initial visited map. -/
def capPhase1 (g : Graph) (queried : Str → Bool) (c : Capability)
    (q : List Node) (vis0 : BfsMap) : List CallRec :=
  q.filterMap (fun v =>
    match g.fn v with
    | none => none
    | some f =>
      match f.pkg with
      | none => none
      | some p => if queried p then some ⟨c, vis0, v⟩ else none)

/-- Processing one incoming edge in the BFS loop (`analyzer.go` lines
762-786).  The accumulator carries the visited map, the nodes appended to
the queue, and the callbacks emitted while processing this node's edges.
Checks in source order: caller function nil, safe, already visited,
explicitly categorized; then the caller is marked visited with this edge,
enqueued, and reported when its package is queried. -/
def bfsEdgeStep (g : Graph) (queried : Str → Bool)
    (safeP explP : Node → Bool) (c : Capability)
    (acc : BfsMap × List Node × List CallRec) (e : Edge) :
    BfsMap × List Node × List CallRec :=
  let w := e.caller
  match g.fn w with
  | none => acc
  | some f =>
    if safeP w then acc
    else if (acc.1 w).isSome then acc
    else if explP w then acc
    else
      let vis := mapInsert acc.1 w (some e)
      let recs :=
        match f.pkg with
        | some p => if queried p then acc.2.2 ++ [⟨c, vis, w⟩] else acc.2.2
        | none => acc.2.2
      (vis, acc.2.1 ++ [w], recs)

/-- The BFS loop of `forEachPath` (`analyzer.go` lines 752-787), with a
fuel parameter replacing the source's reliance on the visited set for
termination.  Pops the queue head, filters its incoming edges by
`IncludeCall`, sorts them `byCaller`, and processes them in order.
Returns the emitted callbacks and the final visited map. -/
def bfsLoop (cl : Classifier) (g : Graph) (queried : Str → Bool)
    (safeP explP : Node → Bool) (c : Capability) :
    Nat → List Node → BfsMap → List CallRec × BfsMap
  | 0, _, vis => ([], vis)
  | _ + 1, [], vis => ([], vis)
  | fuel + 1, v :: q, vis =>
    let incoming := sortEdges ((g.ins v).filter cl.includeCall)
    let st := incoming.foldl (bfsEdgeStep g queried safeP explP c) (vis, [], [])
    let rest := bfsLoop cl g queried safeP explP c fuel (q ++ st.2.1) st.1
    (st.2.2 ++ rest.1, rest.2)

/-- The callbacks emitted for one capability (`analyzer.go` lines 723-787):
the root-reporting phase followed by the BFS phase. -/
def capCallsOf (g : Graph) (uFns : List Node) (queried : Str → Bool)
    (cfg : Config) (fuel : Nat) (c : Capability) : List CallRec :=
  let safeP := fun v => (safeOf g cfg).contains v
  let explP := fun v => (explicitSetOf g uFns cfg).contains v
  let q := capRoots (mergedOf g uFns cfg c) safeP
  let vis0 := vis0Of q
  capPhase1 g queried c q vis0 ++
    (bfsLoop cfg.classifier g queried safeP explP c fuel q vis0).1

/-- The final visited map of one capability's BFS. -/
def capVisitedOf (g : Graph) (uFns : List Node) (queried : Str → Bool)
    (cfg : Config) (fuel : Nat) (c : Capability) : BfsMap :=
  let safeP := fun v => (safeOf g cfg).contains v
  let explP := fun v => (explicitSetOf g uFns cfg).contains v
  let q := capRoots (mergedOf g uFns cfg c) safeP
  (bfsLoop cfg.classifier g queried safeP explP c fuel q (vis0Of q)).2

/-- The capability iteration order (`analyzer.go` lines 718-722): the keys
of the merged map — exactly the capabilities with a nonempty merged set,
since `add` never creates an empty entry — sorted ascending. -/
def capsOf (g : Graph) (uFns : List Node) (cfg : Config) : List Capability :=
  sortCaps (Capability.all.filter (fun c => !(mergedOf g uFns cfg c).isEmpty))

/-- `forEachPath` (`analyzer.go` lines 701-789) as the sequence of
aggregator callbacks it makes. -/
def forEachPathCalls (g : Graph) (uFns : List Node) (queried : Str → Bool)
    (cfg : Config) (fuel : Nat) : List CallRec :=
  (capsOf g uFns cfg).flatMap (fun c => capCallsOf g uFns queried cfg fuel c)

/-! ## `searchBackwardsFromCapabilities` (`analyzer.go` lines 271-322) -/

/-- The BFS loop of `searchBackwardsFromCapabilities` (`analyzer.go` lines
292-320).  Unlike `forEachPath`, the safe and explicitly-categorized
checks are applied while collecting a node's incoming edges, and no
callbacks are made. -/
def sbLoop (cl : Classifier) (g : Graph) (safeP explP : Node → Bool) :
    Nat → List Node → BfsMap → BfsMap
  | 0, _, vis => vis
  | _ + 1, [], vis => vis
  | fuel + 1, v :: q, vis =>
    let incoming := sortEdges ((g.ins v).filter
      (fun e => cl.includeCall e && !safeP e.caller && !explP e.caller))
    let st := incoming.foldl
      (fun (acc : BfsMap × List Node) e =>
        if (acc.1 e.caller).isSome then acc
        else (mapInsert acc.1 e.caller (some e), acc.2 ++ [e.caller]))
      (vis, [])
    sbLoop cl g safeP explP fuel (q ++ st.2) st.1

/-- `searchBackwardsFromCapabilities` (`analyzer.go` lines 274-322): the
queue starts from all non-safe nodes of the per-capability map (all
capabilities at once), sorted `byFunction`, each visited with the zero
state. -/
def searchBackwardsFromCapabilities (g : Graph) (m : Capability → List Node)
    (safeP explP : Node → Bool) (cl : Classifier) (fuel : Nat) : BfsMap :=
  let q := sortNodes ((Capability.all.flatMap m).filter (fun v => !safeP v))
  sbLoop cl g safeP explP fuel q (vis0Of q)

/-! ## Path reconstruction and the output builders
(`GetCapabilityInfo`, `analyzer.go` lines 71-172;
`GetCapabilityStats`, lines 174-249) -/

/-- The state looked up by the aggregators: `nodes[v]` on a Go map yields
the zero `bfsState{}` (nil edge) for unvisited nodes. -/
def stateEdge (m : BfsMap) (v : Node) : Option Edge :=
  match m v with
  | none => none
  | some e => e

/-- The sequence of nodes visited by the aggregator walk
`incomingEdge, v = nodes[v].edge, nodes[v].next()` (`analyzer.go` lines
105-121 and 201-213).  Modelled from the spec (§9, BFS path
reconstruction): `next` of a backward-BFS state follows the stored edge to
its callee, and is nil for a root.  Fuel bounds the walk; the source
relies on the predecessor tree being finite. -/
def visitSeq (m : BfsMap) : Nat → Node → List Node
  | 0, v => [v]
  | fuel + 1, v =>
    match stateEdge m v with
    | none => [v]
    | some e => v :: visitSeq m fuel e.callee

/-- `packagePath(f)`, used at `analyzer.go` lines 117 and 209.  Its
implementation is in a repository file not included under src; modelled
from the spec (§3): the owning package path, falling back to the generic
origin's package path, empty for synthetic functions with neither. -/
def packagePathF (f : FnData) : Str :=
  match f.pkg with
  | some p => p
  | none => f.originPkg.getD []

/-- `packagePath(v.Func)` for a node. -/
def pkgPathN (g : Graph) (v : Node) : Str :=
  match g.fn v with
  | some f => packagePathF f
  | none => []

/-- `isStdLib`, used at `analyzer.go` lines 117 and 209.  Its
implementation is in a repository file not included under src; modelled
from the spec (§4.7): a package is standard-library when its path starts
with one of the fixed prefixes supplied by the classifier oracle. -/
def isStdLibP (cl : Classifier) (p : Str) : Bool :=
  cl.stdlibPrefixes.any (fun q => p.take q.length == q)

/-- `v.Func.Package().Pkg.Path()` of the path head, assigned to `n` at
`analyzer.go` lines 110 and 206 (the callback only ever receives nodes
whose function has a package, so the default is never read there). -/
def headDirOf (g : Graph) (v : Node) : Str :=
  ((g.fn v).bind (fun f => f.pkg)).getD []

/-- `v.Func.Package().Pkg.Name()` of the path head (`analyzer.go` line 114). -/
def headNameOf (g : Graph) (v : Node) : Str :=
  ((g.fn v).map (fun f => f.pkgName)).getD []

/-- Whether the walk flips the capability type to transitive: the source
sets `ctype = TRANSITIVE` whenever some visited function's package differs
from `n` and is not standard library (`analyzer.go` lines 117-119; the
assignment is never undone, so the loop computes exactly this `any`). -/
def transFlag (g : Graph) (cl : Classifier) (n : Str) (seq : List Node) : Bool :=
  seq.any (fun u => !(pkgPathN g u == n) && !isStdLibP cl (pkgPathN g u))

/-- `v.Func.String()` for path entries. -/
def fnNameOf (g : Graph) (u : Node) : Str :=
  ((g.fn u).map (fun f => f.name)).getD []

/-- One output record (`cpb.CapabilityInfo` plus the `*ssa.Function` kept
for sorting, `analyzer.go` lines 92-95); path entries are node
identities. -/
structure CapInfo where
  capability : Capability
  packageDir : Str
  packageName : Str
  capabilityType : CapabilityType
  path : List Node
  depPath : Option Str
  sortFn : Node
deriving DecidableEq, Repr

/-- The `DepPath` string (`analyzer.go` lines 123-132): the path entries'
names joined by single spaces. -/
def joinNames (g : Graph) (l : List Node) : Str :=
  List.intercalate (str " ") (l.map (fnNameOf g))

/-- The `GetCapabilityInfo` callback (`analyzer.go` lines 98-134) applied
to one aggregator invocation: walks the BFS state from the reported node,
collecting path entries (all of them, or only the head under `OmitPaths`
with function granularity), computing the capability type, and the head's
package fields. -/
def buildCapInfo (g : Graph) (cfg : Config) (fuel : Nat) (r : CallRec) :
    CapInfo :=
  let seq := visitSeq r.state fuel r.node
  let n := headDirOf g r.node
  let path :=
    if !cfg.omitPaths then seq
    else if cfg.granularity = .function then [r.node] else []
  { capability := r.cap
    packageDir := n
    packageName := headNameOf g r.node
    capabilityType :=
      if transFlag g cfg.classifier n seq then .transitive else .direct
    path := path
    depPath := if !cfg.omitPaths then some (joinNames g path) else none
    sortFn := r.node }

/-- The final sort order (`analyzer.go` lines 135-140): by capability
value, then by the function key (`funcCompare`, a total order modelled by
the node identity). -/
def capInfoLe (a b : CapInfo) : Prop :=
  capToNat a.capability < capToNat b.capability ∨
    (a.capability = b.capability ∧ a.sortFn ≤ b.sortFn)

instance : DecidableRel capInfoLe := fun a b => by
  unfold capInfoLe; exact inferInstance

/-- The package-granularity de-duplication key (`analyzer.go` lines
143-160): capability together with the function's `*ssa.Package`
(identified by its path; nil package is `none`). -/
def dedupKey (g : Graph) (r : CapInfo) : Capability × Option Str :=
  (r.capability, (g.fn r.sortFn).bind (fun f => f.pkg))

/-- `slices.DeleteFunc` with the `seen` set (`analyzer.go` lines 147-161):
keep the first entry of the sorted list for each key. -/
def dedupByPackage (g : Graph) :
    List (Capability × Option Str) → List CapInfo → List CapInfo
  | _, [] => []
  | seen, r :: rest =>
    let k := dedupKey g r
    if seen.contains k then dedupByPackage g seen rest
    else r :: dedupByPackage g (k :: seen) rest

/-- The granularity default (`analyzer.go` lines 86-88): `GetCapabilityInfo`
overwrites an unset granularity with function granularity in the
caller-supplied `Config`; the record returned here is what the caller's
pointer refers to after the call. -/
def setDefaultGranularity (cfg : Config) : Config :=
  if cfg.granularity = .unset then { cfg with granularity := .function } else cfg

/-- `GetCapabilityInfo` (`analyzer.go` lines 85-172) as the list of
`CapabilityInfo` records it returns (module and package info are not
modelled).  The intermediate-granularity branch (line 89,
`intermediatePackages`) is outside the modelled scope and yields `[]`. -/
def getCapabilityInfoList (g : Graph) (uFns : List Node)
    (queried : Str → Bool) (cfg : Config) (fuel : Nat) : List CapInfo :=
  let cfg := setDefaultGranularity cfg
  if cfg.granularity = .intermediate then []
  else
    let recs := (forEachPathCalls g uFns queried cfg fuel).map
      (buildCapInfo g cfg fuel)
    let sorted := recs.insertionSort capInfoLe
    if cfg.granularity = .package then dedupByPackage g [] sorted else sorted

/-! ## `GetCapabilityStats` (`analyzer.go` lines 174-249) -/

/-- `CapabilityCounter` (`analyzer.go` lines 174-180); the Go `int64`
counters are modelled by `Nat` (they only ever increase by one per
callback, far from overflow).  The source field `example` is
`exampleCallpath` here (`example` is a Lean keyword). -/
structure CapabilityCounter where
  capability : Capability
  count : Nat
  directCount : Nat
  transitiveCount : Nat
  exampleCallpath : List Node
deriving DecidableEq, Repr

/-- Whether a callback's walk is direct (`analyzer.go` lines 199-213). -/
def recIsDirect (g : Graph) (cfg : Config) (fuel : Nat) (r : CallRec) : Bool :=
  !transFlag g cfg.classifier (headDirOf g r.node) (visitSeq r.state fuel r.node)

/-- The example path `e` collected by the stats callback (`analyzer.go`
lines 200-213): every walked node, or only the head under `OmitPaths`. -/
def statsExample (cfg : Config) (fuel : Nat) (r : CallRec) : List Node :=
  if !cfg.omitPaths then visitSeq r.state fuel r.node else [r.node]

/-- One stats callback (`analyzer.go` lines 190-232).  The map is keyed by
the capability (the source keys by `cap.String()`, which is injective on
the enum).  All three conditional blocks are modelled, including the two
`!ok` branches after the first block, which are dead in the source because
the first block always creates the entry (they would reset the capability
field to its zero value, unspecified). -/
def statsStep (g : Graph) (cfg : Config) (fuel : Nat)
    (cm : Capability → Option CapabilityCounter) (r : CallRec) :
    Capability → Option CapabilityCounter :=
  let cm1 := fun c =>
    if c = r.cap then
      match cm r.cap with
      | none => some ⟨r.cap, 1, 0, 0, []⟩
      | some ctr => some { ctr with count := ctr.count + 1 }
    else cm c
  let isDirect := recIsDirect g cfg fuel r
  let e := statsExample cfg fuel r
  let cm2 := fun c =>
    if c = r.cap then
      match cm1 r.cap with
      | none =>
        some (if isDirect then ⟨.unspecified, 1, 1, 0, []⟩
              else ⟨.unspecified, 1, 0, 1, []⟩)
      | some ctr =>
        some (if isDirect then { ctr with directCount := ctr.directCount + 1 }
              else { ctr with transitiveCount := ctr.transitiveCount + 1 })
    else cm1 c
  fun c =>
    if c = r.cap then
      match cm2 r.cap with
      | none => some ⟨.unspecified, 0, 0, 0, e⟩
      | some ctr => some { ctr with exampleCallpath := e }
    else cm2 c

/-- The accumulated stats map over a callback sequence. -/
def buildStatsMap (g : Graph) (cfg : Config) (fuel : Nat)
    (calls : List CallRec) : Capability → Option CapabilityCounter :=
  calls.foldl (statsStep g cfg fuel) (fun _ => none)

/-- The output order of `GetCapabilityStats` (`analyzer.go` lines 242-244):
records sorted by their capability value. -/
def ctrLe (a b : CapabilityCounter) : Prop := capLe a.capability b.capability

instance : DecidableRel ctrLe := fun a b => by
  unfold ctrLe; exact inferInstance

/-- `GetCapabilityStats` (`analyzer.go` lines 186-249) as the list of
per-capability stats records (module info is not modelled); the record
fields are copied one-to-one from the counters (lines 233-241). -/
def getCapabilityStats (g : Graph) (uFns : List Node) (queried : Str → Bool)
    (cfg : Config) (fuel : Nat) : List CapabilityCounter :=
  let calls := forEachPathCalls g uFns queried cfg fuel
  let cm := buildStatsMap g cfg fuel calls
  (Capability.all.filterMap cm).insertionSort ctrLe

/-! ## Environment-variable recording
(`testpkgs/getenv/getenv.go` lines 25-140; `analyzer/env.go` lines
152-271) -/

/-- `removePrefix` (`testpkgs/getenv/getenv.go` lines 47-52, identical in
`analyzer/env.go` lines 132-137): drop `l` from the front of `s` when it
is there, else return `s` unchanged. -/
def removeFirstOf (s l : Str) : Str :=
  if s.length < l.length ∨ s.take l.length ≠ l then s else s.drop l.length

/-- `removePostfix` (`testpkgs/getenv/getenv.go` lines 56-61, identical in
`analyzer/env.go` lines 141-146): drop `l` from the end of `s` when it is
there, else return `s` unchanged. -/
def removeLastOf (s l : Str) : Str :=
  if s.length < l.length ∨ s.drop (s.length - l.length) ≠ l then s
  else s.take (s.length - l.length)

/-- `trimQuotes` (`testpkgs/getenv/getenv.go` lines 64-66, identical in
`analyzer/env.go` lines 149-151): remove a double-quote from each end. -/
def trimQuotes (s : Str) : Str :=
  removeFirstOf (removeLastOf s (str "\"")) (str "\"")

/-- The argument of a recognized environment-reading call, after the
external AST and type layers have resolved it (the tagged sum of spec §9):
`environ` is a zero-argument `Environ` call (the `obj == nil` case);
`basicLit` carries the literal's source text `v.Value` (with its quotes);
`constIdent` carries `idObj.Val().String()` for an identifier resolving to
a `*types.Const` (the quoted constant value); `otherIdent` an identifier
resolving to anything else; `other` any other expression. -/
inductive EnvArg where
  | environ
  | basicLit (value : Str)
  | constIdent (valString : Str)
  | otherIdent
  | other
deriving DecidableEq, Repr

/-- The sentinel for names that are not statically resolvable. -/
def dynamicName : Str := str "=DYNAMIC="

/-- The value recorded for one recognized call by `reportCallsReadingEnv`
in `testpkgs/getenv/getenv.go` (lines 109-132): quotes are trimmed from
literals and from constant values. -/
def envVarRecordedByGetenvVariant : EnvArg → Str
  | .environ => dynamicName
  | .basicLit v => trimQuotes v
  | .constIdent s => trimQuotes s
  | .otherIdent => dynamicName
  | .other => dynamicName

/-- The value recorded for one recognized call by `reportCallsReadingEnv`
in `analyzer/env.go` (lines 192-213): `some` is a key added to
`envVars` — the raw `v.Value` for a literal, the raw `Val().String()` for
a constant, both still carrying their quotes; `none` increments
`dynamicCount`. -/
def envVarRecordedByEnvVariant : EnvArg → Option Str
  | .environ => none
  | .basicLit v => some v
  | .constIdent s => some s
  | .otherIdent => none
  | .other => none

/-- The environment report of `testpkgs/getenv/getenv.go` (line 25):
package path → environment-variable names.  Modelled as the list of
(package, name) entries; `Add` (lines 29-35) is idempotent because the
source stores a set. -/
structure EnvReportS where
  entries : List (Str × Str)
deriving DecidableEq, Repr

/-- `EnvReport.Add` (`testpkgs/getenv/getenv.go` lines 29-35). -/
def envAdd (rep : EnvReportS) (pkg key : Str) : EnvReportS :=
  if rep.entries.contains (pkg, key) then rep
  else ⟨rep.entries ++ [(pkg, key)]⟩

/-- `GetEnvReportInstance` (`testpkgs/getenv/getenv.go` lines 37-43, same
pattern in `analyzer/env.go` lines 169-177): the process-wide singleton —
reuse the existing report when one exists, otherwise create an empty one.
The process state is the `Option` of the current singleton. -/
def getEnvReportInstance (globalRep : Option EnvReportS) : EnvReportS :=
  match globalRep with
  | none => ⟨[]⟩
  | some r => r

/-- `reportCallsReadingEnv` (`testpkgs/getenv/getenv.go` lines 98-140)
over the singleton state.  Modelled from the spec for the AST layer: the
syntactic recognition done by `isReadingEnv` (lines 145-190) over the
loader-owned syntax trees is summarized by giving, per package, the list
of recognized environment-reading call arguments.  Every recognized call
adds its recorded value to the singleton obtained from
`GetEnvReportInstance`; the function's result is the singleton's new
value, which remains the process state for any later analysis. -/
def reportCallsReadingEnv (globalRep : Option EnvReportS)
    (pkgs : List (Str × List EnvArg)) : EnvReportS :=
  pkgs.foldl
    (fun rep pkg =>
      pkg.2.foldl
        (fun rep a => envAdd rep pkg.1 (envVarRecordedByGetenvVariant a))
        rep)
    (getEnvReportInstance globalRep)

/-! ## Membership characterizations of the classified and merged sets -/

theorem mem_capability_all (c : Capability) : c ∈ Capability.all := by
  cases c <;> simp [Capability.all]

theorem mem_safeOf {g : Graph} {cfg : Config} {v : Node} :
    v ∈ safeOf g cfg ↔
      v ∈ g.nodes ∧ nodeCategory g cfg.classifier v = some .safe := by
  simp only [safeOf, getNodeCapabilities, List.mem_filterMap]
  constructor
  · rintro ⟨a, ha, hf⟩
    by_cases h : nodeCategory g cfg.classifier a = some .safe
    · simp [h] at hf; exact ⟨hf ▸ ha, hf ▸ h⟩
    · simp [h] at hf
  · rintro ⟨hv, hc⟩
    exact ⟨v, hv, by simp [hc]⟩

theorem mem_explicitOf {g : Graph} {cfg : Config} {c : Capability} {v : Node} :
    v ∈ explicitOf g cfg c ↔
      ¬(c = .safe ∨ c = .unspecified) ∧ v ∈ g.nodes ∧
        nodeCategory g cfg.classifier v = some c := by
  simp only [explicitOf, getNodeCapabilities]
  by_cases hc : c = .safe ∨ c = .unspecified
  · simp [hc]
  · simp only [hc, if_false, List.mem_filterMap]
    constructor
    · rintro ⟨a, ha, hf⟩
      by_cases h : nodeCategory g cfg.classifier a = some c
      · simp [h] at hf; exact ⟨by simp [hc], hf ▸ ha, hf ▸ h⟩
      · simp [h] at hf
    · rintro ⟨-, hv, h⟩
      exact ⟨v, hv, by simp [h]⟩

theorem explicitSetOf_spec {g : Graph} {uFns : List Node} {cfg : Config}
    {v : Node} :
    (explicitSetOf g uFns cfg).contains v = true ↔
      ∃ c, v ∈ explicitOf g cfg c := by
  rw [List.elem_iff]
  simp only [explicitSetOf, mergeCapabilities, List.mem_flatMap]
  constructor
  · rintro ⟨c, -, hm⟩; exact ⟨c, hm⟩
  · rintro ⟨c, hm⟩; exact ⟨c, mem_capability_all c, hm⟩

theorem mem_mergedOf {g : Graph} {uFns : List Node} {cfg : Config}
    {c : Capability} {v : Node} :
    v ∈ mergedOf g uFns cfg c ↔
      v ∈ explicitOf g cfg c ∨
        (v ∈ extraOf g uFns cfg c ∧
          (explicitSetOf g uFns cfg).contains v = false) := by
  have : (explicitSetOf g uFns cfg) = Capability.all.flatMap (explicitOf g cfg) := rfl
  simp only [mergedOf, mergeCapabilities, List.mem_append, List.mem_filter,
    ← this]
  constructor
  · rintro (h | ⟨h1, h2⟩)
    · exact Or.inl h
    · exact Or.inr ⟨h1, by simpa using h2⟩
  · rintro (h | ⟨h1, h2⟩)
    · exact Or.inl h
    · exact Or.inr ⟨h1, by simpa using h2⟩

/-- A node has at most one explicit category. -/
theorem explicitOf_unique {g : Graph} {cfg : Config} {c d : Capability}
    {v : Node} (hc : v ∈ explicitOf g cfg c) (hd : v ∈ explicitOf g cfg d) :
    c = d := by
  obtain ⟨-, -, h1⟩ := mem_explicitOf.mp hc
  obtain ⟨-, -, h2⟩ := mem_explicitOf.mp hd
  exact Option.some.inj (h1 ▸ h2 ▸ rfl)

/-- A safe-classified node is in no explicit set. -/
theorem safe_not_explicit {g : Graph} {cfg : Config} {c : Capability}
    {v : Node} (hs : v ∈ safeOf g cfg) : v ∉ explicitOf g cfg c := by
  intro he
  obtain ⟨-, hcat⟩ := mem_safeOf.mp hs
  obtain ⟨hne, -, hcat'⟩ := mem_explicitOf.mp he
  exact hne (Or.inl (Option.some.inj (hcat ▸ hcat')).symm)

theorem mem_capRoots {mergedc : List Node} {safeP : Node → Bool} {v : Node} :
    v ∈ capRoots mergedc safeP ↔ v ∈ mergedc ∧ safeP v = false := by
  unfold capRoots sortNodes
  rw [(List.perm_insertionSort _ _).mem_iff, List.mem_filter]
  simp

/-! ## A concrete fixture used by witnesses and counterexamples -/

/-- An ordinary function with a package and an (empty) body. -/
def mkFn (pkg name : String) : FnData :=
  { pkg := some (str pkg), pkgName := str pkg, name := str name,
    originPkg := none, originName := [], synthetic := false,
    body := some ⟨[], []⟩ }

/-- A function with no IR blocks and no synthetic marker (assembly). -/
def asmFn (pkg name : String) : FnData :=
  { pkg := some (str pkg), pkgName := str pkg, name := str name,
    originPkg := none, originName := [], synthetic := false, body := none }

/-- Fixture graph: `q.Caller` (0) and `r.Helper` (3) call `os.ReadFile`
(1); `p.Asm` (2) is an assembly function; `q.Net` (4) is isolated. -/
def fixGraph : Graph :=
  { nodes := [0, 1, 2, 3, 4]
    fn := fun v =>
      if v = 0 then some (mkFn "q" "q.Caller")
      else if v = 1 then some (mkFn "os" "os.ReadFile")
      else if v = 2 then some (asmFn "p" "p.Asm")
      else if v = 3 then some (mkFn "r" "r.Helper")
      else if v = 4 then some (mkFn "q" "q.Net")
      else none
    ins := fun v => if v = 1 then [⟨0, 1⟩, ⟨3, 1⟩] else [] }

/-- Fixture classifier: `os.ReadFile` has the files capability, everything
in package `p` is safe, `q.Net` has the network capability. -/
def fixClassifier : Classifier :=
  { functionCategory := fun p n =>
      if p = str "os" ∧ n = str "os.ReadFile" then .files
      else if p = str "p" then .safe
      else if p = str "q" ∧ n = str "q.Net" then .network
      else .unspecified
    includeCall := fun _ => true
    stdlibPrefixes := [str "os", str "syscall", str "runtime"] }

/-- Fixture configuration. -/
def fixConfig : Config :=
  { classifier := fixClassifier, disableBuiltin := false,
    granularity := .unset, capabilitySet := none, omitPaths := false }

/-- The fixture's queried packages: just `q`. -/
def fixQueried : Str → Bool := fun p => p == str "q"

/-! ## Claims C1 and C2 -/

/-- C1 counterexample: node 2's function is classified safe by the oracle,
yet after classification, the derived scanners (which attribute
arbitrary-execution to it, as it has no blocks and no synthetic marker)
and the merger, it is a member of the merged arbitrary-execution nodeset —
because the merger only skips nodes of the explicitly-classified set,
which never includes safe nodes. -/
theorem safe_node_in_derived_set_cex :
    nodeCategory fixGraph fixClassifier 2 = some .safe ∧
    2 ∈ safeOf fixGraph fixConfig ∧
    2 ∈ mergedOf fixGraph [] fixConfig .arbitraryExecution := by
  refine ⟨by decide, by decide, by decide⟩

/-- C2: the merger adds a derived (capability, node) pair exactly when the
node is outside the union of the explicitly-classified sets, it preserves
every explicit entry, and a node explicitly classified with capability X
appears in the merged map under X and under nothing else (in particular no
derived entry is produced for it). -/
theorem mergeCapabilities_explicit_precedence
    (g : Graph) (uFns : List Node) (cfg : Config) :
    (∀ c w, w ∈ mergedOf g uFns cfg c ↔
        w ∈ explicitOf g cfg c ∨
          (w ∈ extraOf g uFns cfg c ∧
            (explicitSetOf g uFns cfg).contains w = false)) ∧
    (∀ c w, w ∈ explicitOf g cfg c → w ∈ mergedOf g uFns cfg c) ∧
    (∀ X w, w ∈ explicitOf g cfg X →
        ∀ c, w ∈ mergedOf g uFns cfg c ↔ c = X) := by
  refine ⟨fun c w => mem_mergedOf, fun c w h => mem_mergedOf.mpr (Or.inl h),
    fun X w hX c => ?_⟩
  constructor
  · intro hm
    rcases mem_mergedOf.mp hm with h | ⟨-, hset⟩
    · exact explicitOf_unique h hX
    · rw [explicitSetOf_spec.mpr ⟨X, hX⟩] at hset
      cases hset
  · rintro rfl
    exact mem_mergedOf.mpr (Or.inl hX)

/-- C2 witness: in the fixture, `os.ReadFile` is explicitly classified
with the files capability and appears in the merged map exactly under
files. -/
theorem mergeCapabilities_explicit_precedence_witness :
    1 ∈ explicitOf fixGraph fixConfig .files ∧
      (∀ c, 1 ∈ mergedOf fixGraph [] fixConfig c ↔ c = .files) :=
  ⟨by decide,
    (mergeCapabilities_explicit_precedence fixGraph [] fixConfig).2.2
      .files 1 (by decide)⟩

/-! ## Claim C10: the granularity default mutates the caller's Config -/

/-- C10: `GetCapabilityInfo` overwrites an unset granularity in the
caller-supplied `Config` with function granularity before proceeding (the
config the caller's pointer refers to after the call is
`setDefaultGranularity cfg`); every other field is left unchanged, and a
config whose granularity is already set is not modified at all.
`getCapabilityInfoList` goes on to analyze under the defaulted config. -/
theorem getCapabilityInfo_defaults_granularity (cfg : Config) (g : Graph)
    (uFns : List Node) (queried : Str → Bool) (fuel : Nat) :
    (setDefaultGranularity cfg).granularity =
      (if cfg.granularity = .unset then .function else cfg.granularity) ∧
    (setDefaultGranularity cfg).classifier = cfg.classifier ∧
    (setDefaultGranularity cfg).disableBuiltin = cfg.disableBuiltin ∧
    (setDefaultGranularity cfg).capabilitySet = cfg.capabilitySet ∧
    (setDefaultGranularity cfg).omitPaths = cfg.omitPaths ∧
    getCapabilityInfoList g uFns queried cfg fuel =
      getCapabilityInfoList g uFns queried (setDefaultGranularity cfg) fuel := by
  unfold setDefaultGranularity
  by_cases h : cfg.granularity = .unset <;>
    simp [h, getCapabilityInfoList, setDefaultGranularity]

/-! ## Claim C8: quoting of recorded environment-variable values -/

/-- C8 exhibits a code bug: for the call `os.Getenv("HOME")` the
`analyzer/env.go` variant of `reportCallsReadingEnv` stores the raw
literal source text — the quoted form — as the recorded name, while the
`testpkgs/getenv/getenv.go` variant trims the quotes and stores `HOME`,
which is what the claim (and spec §4.3, §9.3) requires; likewise for an
identifier resolving to a typed constant. -/
theorem env_variant_stores_quoted_value :
    envVarRecordedByEnvVariant (.basicLit (str "\"HOME\"")) =
      some (str "\"HOME\"") ∧
    str "\"HOME\"" ≠ str "HOME" ∧
    envVarRecordedByGetenvVariant (.basicLit (str "\"HOME\"")) = str "HOME" ∧
    envVarRecordedByEnvVariant (.constIdent (str "\"PATH\"")) =
      some (str "\"PATH\"") ∧
    envVarRecordedByGetenvVariant (.constIdent (str "\"PATH\"")) =
      str "PATH" ∧
    envVarRecordedByGetenvVariant .environ = dynamicName := by
  refine ⟨by decide, by decide, by decide, by decide, by decide, by decide⟩

/-! ## Claim C9: the environment report is a process-wide singleton -/

/-- C9 exhibits a code bug: running one analysis (over a package `a`
reading `FOO`) and then a second analysis (over a package `b` reading
`BAR`) in the same process makes the second analysis's report contain the
first analysis's entry, because `reportCallsReadingEnv` accumulates into
the singleton returned by `GetEnvReportInstance`; a fresh process running
only the second analysis produces a report without that entry.  The
environment-report state is therefore implicitly shared between analyses,
contrary to the claim. -/
theorem env_report_singleton_shared :
    (str "a", str "FOO") ∈
      (reportCallsReadingEnv
        (some (reportCallsReadingEnv none
          [(str "a", [.basicLit (str "\"FOO\"")])]))
        [(str "b", [.basicLit (str "\"BAR\"")])]).entries ∧
    (str "a", str "FOO") ∉
      (reportCallsReadingEnv none
        [(str "b", [.basicLit (str "\"BAR\"")])]).entries := by
  refine ⟨by decide, by decide⟩

/-! ## Claim C4: direct vs transitive classification -/

/-- The aggregator walk always starts at the reported node. -/
theorem visitSeq_eq_cons_tail (m : BfsMap) (fuel : Nat) (v : Node) :
    visitSeq m fuel v = v :: (visitSeq m fuel v).tail := by
  cases fuel with
  | zero => rfl
  | succ n =>
    unfold visitSeq
    cases stateEdge m v <;> rfl

/-- C4: for every record built by the `GetCapabilityInfo` callback, the
capability-type is direct if and only if every function on the witness
path other than the head belongs either to the head function's package or
to a standard-library package per the oracle's prefix list; otherwise it
is transitive.  (The head itself never flips the type: its `packagePath`
equals the package recorded in `n`.) -/
theorem capability_type_direct_iff (g : Graph) (cfg : Config) (fuel : Nat)
    (r : CallRec) (f : FnData) (p : Str)
    (hf : g.fn r.node = some f) (hp : f.pkg = some p) :
    ((buildCapInfo g cfg fuel r).capabilityType = .direct ↔
      ∀ u ∈ (visitSeq r.state fuel r.node).tail,
        pkgPathN g u = p ∨ isStdLibP cfg.classifier (pkgPathN g u) = true) ∧
    ((buildCapInfo g cfg fuel r).capabilityType ≠ .direct →
      (buildCapInfo g cfg fuel r).capabilityType = .transitive) := by
  have hn : headDirOf g r.node = p := by simp [headDirOf, hf, hp]
  have hhead : pkgPathN g r.node = p := by simp [pkgPathN, hf, packagePathF, hp]
  constructor
  · rw [show (buildCapInfo g cfg fuel r).capabilityType =
        (if transFlag g cfg.classifier (headDirOf g r.node)
            (visitSeq r.state fuel r.node) then
          CapabilityType.transitive else .direct) from rfl]
    rw [hn]
    have hseq := visitSeq_eq_cons_tail r.state fuel r.node
    rw [show transFlag g cfg.classifier p (visitSeq r.state fuel r.node) =
        transFlag g cfg.classifier p
          (r.node :: (visitSeq r.state fuel r.node).tail) from by rw [← hseq]]
    unfold transFlag
    simp only [List.any_cons, hhead, beq_self_eq_true, Bool.not_true,
      Bool.false_and, Bool.false_or]
    constructor
    · intro h u hu
      by_cases hif : (List.any (visitSeq r.state fuel r.node).tail fun u =>
          !(pkgPathN g u == p) && !isStdLibP cfg.classifier (pkgPathN g u)) = true
      · rw [if_pos hif] at h; cases h
      · rw [List.any_eq_true] at hif
        push_neg at hif
        have h4 := hif u hu
        by_cases h2 : pkgPathN g u = p
        · exact Or.inl h2
        · right
          by_contra h3
          exact h4 (by simp [h2, h3])
    · intro h
      rw [if_neg ?_]
      rw [List.any_eq_true]
      push_neg
      intro u hu
      rcases h u hu with h1 | h1 <;> simp [h1]
  · intro h
    rw [show (buildCapInfo g cfg fuel r).capabilityType =
        (if transFlag g cfg.classifier (headDirOf g r.node)
            (visitSeq r.state fuel r.node) then
          CapabilityType.transitive else .direct) from rfl] at h ⊢
    by_cases hif : transFlag g cfg.classifier (headDirOf g r.node)
        (visitSeq r.state fuel r.node) = true
    · rw [if_pos hif]
    · rw [if_neg (by simp [hif])] at h
      exact absurd rfl h

/-- A concrete BFS state for the fixture: `q.Caller` (0) was reached via
the edge from it to `os.ReadFile` (1), which is a root. -/
def fixWalkState : BfsMap := fun v =>
  if v = 0 then some (some ⟨0, 1⟩) else if v = 1 then some none else none

/-- A concrete aggregator callback for the fixture. -/
def fixWalkRec : CallRec := ⟨.files, fixWalkState, 0⟩

/-- C4 witness: the theorem applied to the fixture walk `q.Caller →
os.ReadFile`. -/
theorem capability_type_direct_iff_witness :
    fixGraph.fn fixWalkRec.node = some (mkFn "q" "q.Caller") ∧
    (mkFn "q" "q.Caller").pkg = some (str "q") ∧
    (((buildCapInfo fixGraph fixConfig 5 fixWalkRec).capabilityType = .direct ↔
        ∀ u ∈ (visitSeq fixWalkRec.state 5 fixWalkRec.node).tail,
          pkgPathN fixGraph u = str "q" ∨
            isStdLibP fixConfig.classifier (pkgPathN fixGraph u) = true) ∧
      ((buildCapInfo fixGraph fixConfig 5 fixWalkRec).capabilityType ≠ .direct →
        (buildCapInfo fixGraph fixConfig 5 fixWalkRec).capabilityType =
          .transitive)) :=
  ⟨by decide, by decide,
    capability_type_direct_iff fixGraph fixConfig 5 fixWalkRec
      (mkFn "q" "q.Caller") (str "q") (by decide) (by decide)⟩

/-! ## Claim C7: stats counters -/

theorem statsStep_at_other {g : Graph} {cfg : Config} {fuel : Nat}
    {cm : Capability → Option CapabilityCounter} {r : CallRec}
    {c : Capability} (h : ¬c = r.cap) :
    statsStep g cfg fuel cm r c = cm c := by
  simp [statsStep, h]

theorem statsStep_at_cap (g : Graph) (cfg : Config) (fuel : Nat)
    (cm : Capability → Option CapabilityCounter) (r : CallRec) :
    statsStep g cfg fuel cm r r.cap =
      some (match cm r.cap, recIsDirect g cfg fuel r with
        | none, true => ⟨r.cap, 1, 1, 0, statsExample cfg fuel r⟩
        | none, false => ⟨r.cap, 1, 0, 1, statsExample cfg fuel r⟩
        | some ctr, true =>
          ⟨ctr.capability, ctr.count + 1, ctr.directCount + 1,
            ctr.transitiveCount, statsExample cfg fuel r⟩
        | some ctr, false =>
          ⟨ctr.capability, ctr.count + 1, ctr.directCount,
            ctr.transitiveCount + 1, statsExample cfg fuel r⟩) := by
  cases hcm : cm r.cap <;> cases hd : recIsDirect g cfg fuel r <;>
    simp [statsStep, hcm, hd]

/-- A conjunction filter is empty whenever the filter by its first
conjunct is. -/
theorem filterAnd_eq_nil {l : List CallRec} {p : CallRec → Bool}
    (h : l.filter p = []) (q : CallRec → Bool) :
    l.filter (fun x => p x && q x) = [] := by
  rw [List.filter_eq_nil_iff] at h ⊢
  intro a ha
  simp [h a ha]

/-- Splitting a filtered length by a second predicate. -/
theorem length_filter_split (l : List CallRec) (p q : CallRec → Bool) :
    (l.filter p).length =
      (l.filter (fun x => p x && q x)).length +
        (l.filter (fun x => p x && !q x)).length := by
  induction l with
  | nil => rfl
  | cons x l ih =>
    by_cases hp : p x
    · by_cases hq : q x <;> simp [List.filter_cons, hp, hq, ih] <;> omega
    · simp [List.filter_cons, hp, ih]

/-- Characterization of the stats accumulator: for each capability, the
counter (when present) carries that capability, its total count is the
number of callbacks for it, and its direct/transitive counts partition the
callbacks by `recIsDirect`. -/
theorem buildStatsMap_char (g : Graph) (cfg : Config) (fuel : Nat)
    (calls : List CallRec) (c : Capability) :
    (buildStatsMap g cfg fuel calls c = none →
      calls.filter (fun r => r.cap == c) = []) ∧
    (∀ ctr, buildStatsMap g cfg fuel calls c = some ctr →
      ctr.capability = c ∧
      ctr.count = (calls.filter (fun r => r.cap == c)).length ∧
      ctr.directCount = (calls.filter
        (fun r => r.cap == c && recIsDirect g cfg fuel r)).length ∧
      ctr.transitiveCount = (calls.filter
        (fun r => r.cap == c && !recIsDirect g cfg fuel r)).length) := by
  induction calls using List.reverseRecOn with
  | nil => exact ⟨fun _ => rfl, fun ctr h => by cases h⟩
  | append_singleton l r ih =>
    have hfold : buildStatsMap g cfg fuel (l ++ [r]) =
        statsStep g cfg fuel (buildStatsMap g cfg fuel l) r := by
      simp [buildStatsMap, List.foldl_append]
    by_cases hc : c = r.cap
    · subst hc
      rw [hfold]
      refine ⟨fun h => ?_, fun ctr h => ?_⟩
      · rw [statsStep_at_cap] at h; cases h
      · rw [statsStep_at_cap] at h
        cases hcm : buildStatsMap g cfg fuel l r.cap with
        | none =>
          have hnil := ih.1 hcm
          rw [hcm] at h
          cases hd : recIsDirect g cfg fuel r <;> rw [hd] at h <;>
            injection h with h <;> subst h <;>
            simp [List.filter_append, hnil, filterAnd_eq_nil hnil, hd]
        | some prev =>
          obtain ⟨hcap, hcount, hdir, htr⟩ := ih.2 prev hcm
          rw [hcm] at h
          cases hd : recIsDirect g cfg fuel r <;> rw [hd] at h <;>
            injection h with h <;> subst h <;>
            simp [List.filter_append, hcap, hcount, hdir, htr, hd]
    · rw [hfold, statsStep_at_other hc]
      have hne : (r.cap == c) = false := by
        rw [beq_eq_false_iff_ne]
        exact fun h => hc h.symm
      refine ⟨fun h => ?_, fun ctr h => ?_⟩
      · simp [List.filter_append, hne, ih.1 h]
      · obtain ⟨hcap, hcount, hdir, htr⟩ := ih.2 ctr h
        simp [List.filter_append, hne, hcap, hcount, hdir, htr]

/-- C7: every record in the output of `GetCapabilityStats` satisfies
direct_count + transitive_count = count, where count is the total number
of aggregator callbacks for its capability, and the direct/transitive
counts are the numbers of callbacks classified direct resp. transitive —
so each callback contributes to exactly one of the two. -/
theorem stats_counts_consistent (g : Graph) (uFns : List Node)
    (queried : Str → Bool) (cfg : Config) (fuel : Nat)
    (rec : CapabilityCounter)
    (hrec : rec ∈ getCapabilityStats g uFns queried cfg fuel) :
    rec.directCount + rec.transitiveCount = rec.count ∧
    rec.count = ((forEachPathCalls g uFns queried cfg fuel).filter
      (fun r => r.cap == rec.capability)).length ∧
    rec.directCount = ((forEachPathCalls g uFns queried cfg fuel).filter
      (fun r => r.cap == rec.capability && recIsDirect g cfg fuel r)).length ∧
    rec.transitiveCount = ((forEachPathCalls g uFns queried cfg fuel).filter
      (fun r => r.cap == rec.capability && !recIsDirect g cfg fuel r)).length := by
  unfold getCapabilityStats at hrec
  rw [(List.perm_insertionSort _ _).mem_iff, List.mem_filterMap] at hrec
  obtain ⟨c, -, hc⟩ := hrec
  obtain ⟨hcap, hcount, hdir, htr⟩ :=
    (buildStatsMap_char g cfg fuel
      (forEachPathCalls g uFns queried cfg fuel) c).2 rec hc
  subst hcap
  exact ⟨by rw [hcount, hdir, htr,
      ← length_filter_split (forEachPathCalls g uFns queried cfg fuel)
        (fun r => r.cap == rec.capability) (recIsDirect g cfg fuel)],
    hcount, hdir, htr⟩

/-- The fixture's files stats record. -/
def fixStatsRec : CapabilityCounter := ⟨.files, 1, 1, 0, [0, 1]⟩

/-- C7 witness: the theorem applied to the fixture's files record. -/
theorem stats_counts_consistent_witness :
    fixStatsRec ∈ getCapabilityStats fixGraph [] fixQueried fixConfig 9 ∧
    (fixStatsRec.directCount + fixStatsRec.transitiveCount =
        fixStatsRec.count ∧
      fixStatsRec.count =
        ((forEachPathCalls fixGraph [] fixQueried fixConfig 9).filter
          (fun r => r.cap == fixStatsRec.capability)).length ∧
      fixStatsRec.directCount =
        ((forEachPathCalls fixGraph [] fixQueried fixConfig 9).filter
          (fun r => r.cap == fixStatsRec.capability &&
            recIsDirect fixGraph fixConfig 9 r)).length ∧
      fixStatsRec.transitiveCount =
        ((forEachPathCalls fixGraph [] fixQueried fixConfig 9).filter
          (fun r => r.cap == fixStatsRec.capability &&
            !recIsDirect fixGraph fixConfig 9 r)).length) :=
  ⟨by decide,
    stats_counts_consistent fixGraph [] fixQueried fixConfig 9 fixStatsRec
      (by decide)⟩

/-! ## Claim C5: roots are reported before BFS expansion -/

/-- Every callback emitted while processing one node's incoming edges is
for the capability being searched and records a non-root state for the
reported node (the predecessor edge just inserted). -/
theorem bfsEdgeStep_records {g : Graph} {queried : Str → Bool}
    {safeP explP : Node → Bool} {c : Capability}
    {acc : BfsMap × List Node × List CallRec} {e : Edge}
    (hacc : ∀ r ∈ acc.2.2, r.cap = c ∧ ∃ e', r.state r.node = some (some e'))
    (r : CallRec) (hr : r ∈ (bfsEdgeStep g queried safeP explP c acc e).2.2) :
    r.cap = c ∧ ∃ e', r.state r.node = some (some e') := by
  simp only [bfsEdgeStep] at hr
  cases hfn : g.fn e.caller with
  | none => simp only [hfn] at hr; exact hacc r hr
  | some f =>
    simp only [hfn] at hr
    by_cases h1 : safeP e.caller = true
    · simp only [h1, if_true] at hr; exact hacc r hr
    · simp only [h1, if_false] at hr
      by_cases h2 : (acc.1 e.caller).isSome = true
      · simp only [h2, if_true] at hr; exact hacc r hr
      · simp only [h2, if_false] at hr
        by_cases h3 : explP e.caller = true
        · simp only [h3, if_true] at hr; exact hacc r hr
        · simp only [h3, if_false] at hr
          cases hp : f.pkg with
          | none => simp only [hp] at hr; exact hacc r hr
          | some p =>
            simp only [hp] at hr
            by_cases hq : queried p = true
            · simp only [hq, if_true] at hr
              rcases List.mem_append.mp hr with h | h
              · exact hacc r h
              · rcases List.mem_singleton.mp h with rfl
                exact ⟨rfl, e, by simp [mapInsert]⟩
            · simp only [hq, if_false] at hr; exact hacc r hr

theorem bfsEdgeStep_fold_records {g : Graph} {queried : Str → Bool}
    {safeP explP : Node → Bool} {c : Capability} :
    ∀ (edges : List Edge) (acc : BfsMap × List Node × List CallRec),
      (∀ r ∈ acc.2.2, r.cap = c ∧ ∃ e', r.state r.node = some (some e')) →
      ∀ r ∈ (edges.foldl (bfsEdgeStep g queried safeP explP c) acc).2.2,
        r.cap = c ∧ ∃ e', r.state r.node = some (some e')
  | [], _, hacc => hacc
  | _ :: edges, _, hacc =>
    bfsEdgeStep_fold_records edges _ (bfsEdgeStep_records hacc)

/-- Every callback emitted during the BFS phase reports a node whose state
holds a predecessor edge (it is not a root callback). -/
theorem bfsLoop_records (cl : Classifier) (g : Graph) (queried : Str → Bool)
    (safeP explP : Node → Bool) (c : Capability) :
    ∀ (fuel : Nat) (q : List Node) (vis : BfsMap),
      ∀ r ∈ (bfsLoop cl g queried safeP explP c fuel q vis).1,
        r.cap = c ∧ ∃ e', r.state r.node = some (some e')
  | 0, _, _, r, hr => by cases hr
  | _ + 1, [], _, r, hr => by cases hr
  | fuel + 1, v :: q, vis, r, hr => by
    rw [show bfsLoop cl g queried safeP explP c (fuel + 1) (v :: q) vis =
        (let incoming := sortEdges ((g.ins v).filter cl.includeCall)
         let st := incoming.foldl (bfsEdgeStep g queried safeP explP c)
           (vis, [], [])
         let rest := bfsLoop cl g queried safeP explP c fuel (q ++ st.2.1) st.1
         (st.2.2 ++ rest.1, rest.2)) from rfl] at hr
    rcases List.mem_append.mp hr with h | h
    · exact bfsEdgeStep_fold_records _ _ (fun r hr => by cases hr) r h
    · exact bfsLoop_records cl g queried safeP explP c fuel _ _ r h

/-- C5: a node that is both a BFS root for capability `c` (it is in the
merged set for `c` and not safe) and a function of a queried package is
reported by the root phase with the initial visited map, in which its own
predecessor state is empty — so its reconstructed path is `[v]`, of
length 1; the callbacks for `c` are exactly the root-phase callbacks
followed by the BFS-expansion callbacks, and every expansion callback
reports a node with a non-empty predecessor state, so the root's callback
fires before all of them. -/
theorem roots_reported_before_expansion (g : Graph) (uFns : List Node)
    (queried : Str → Bool) (cfg : Config) (fuel : Nat) (c : Capability)
    (v : Node) (f : FnData) (p : Str)
    (hm : v ∈ mergedOf g uFns cfg c)
    (hs : (safeOf g cfg).contains v = false)
    (hf : g.fn v = some f) (hp : f.pkg = some p) (hq : queried p = true) :
    let safeP := fun w => (safeOf g cfg).contains w
    let explP := fun w => (explicitSetOf g uFns cfg).contains w
    let q := capRoots (mergedOf g uFns cfg c) safeP
    let vis0 := vis0Of q
    (⟨c, vis0, v⟩ : CallRec) ∈ capPhase1 g queried c q vis0 ∧
    vis0 v = some none ∧
    visitSeq vis0 fuel v = [v] ∧
    capCallsOf g uFns queried cfg fuel c =
      capPhase1 g queried c q vis0 ++
        (bfsLoop cfg.classifier g queried safeP explP c fuel q vis0).1 ∧
    (∀ r ∈ (bfsLoop cfg.classifier g queried safeP explP c fuel q vis0).1,
      ∃ e', r.state r.node = some (some e')) := by
  intro safeP explP q vis0
  have hvq : v ∈ q := mem_capRoots.mpr ⟨hm, hs⟩
  have hv0 : vis0 v = some none := by
    have : q.contains v = true := List.elem_iff.mpr hvq
    simp only [vis0, vis0Of, this, if_pos]
  refine ⟨?_, hv0, ?_, rfl, ?_⟩
  · exact List.mem_filterMap.mpr ⟨v, hvq, by simp [hf, hp, hq]⟩
  · cases fuel with
    | zero => rfl
    | succ n => simp [visitSeq, stateEdge, hv0]
  · intro r hr
    exact (bfsLoop_records cfg.classifier g queried safeP explP c fuel q
      vis0 r hr).2

/-- C5 witness: the fixture's `q.Net` node is a network root in the
queried package `q` and is reported by the root phase. -/
theorem roots_reported_before_expansion_witness :
    (4 ∈ mergedOf fixGraph [] fixConfig .network ∧
      (safeOf fixGraph fixConfig).contains 4 = false ∧
      fixGraph.fn 4 = some (mkFn "q" "q.Net") ∧
      (mkFn "q" "q.Net").pkg = some (str "q") ∧
      fixQueried (str "q") = true) ∧
    (let safeP := fun w => (safeOf fixGraph fixConfig).contains w
     let explP := fun w => (explicitSetOf fixGraph [] fixConfig).contains w
     let q := capRoots (mergedOf fixGraph [] fixConfig .network) safeP
     let vis0 := vis0Of q
     (⟨.network, vis0, 4⟩ : CallRec) ∈ capPhase1 fixGraph fixQueried .network q vis0 ∧
     vis0 4 = some none ∧
     visitSeq vis0 9 4 = [4] ∧
     capCallsOf fixGraph [] fixQueried fixConfig 9 .network =
       capPhase1 fixGraph fixQueried .network q vis0 ++
         (bfsLoop fixConfig.classifier fixGraph fixQueried safeP explP
           .network 9 q vis0).1 ∧
     (∀ r ∈ (bfsLoop fixConfig.classifier fixGraph fixQueried safeP explP
         .network 9 q vis0).1,
       ∃ e', r.state r.node = some (some e'))) :=
  ⟨⟨by decide, by decide, by decide, by decide, by decide⟩,
    roots_reported_before_expansion fixGraph [] fixQueried fixConfig 9
      .network 4 (mkFn "q" "q.Net") (str "q")
      (by decide) (by decide) (by decide) (by decide) (by decide)⟩

/-! ## Claim C3: the reverse BFS never reaches safe or explicit nodes -/

/-- The visited-map invariant of both reverse searches, relative to the
initial map `vis0`: a node visited through an edge is that edge's caller
and is neither safe nor explicitly classified; a node holding the root
state was a root already; the entries of safe nodes never change. -/
def VisInv (safeP explP : Node → Bool) (vis0 vis : BfsMap) : Prop :=
  (∀ w e, vis w = some (some e) →
    e.caller = w ∧ safeP w = false ∧ explP w = false) ∧
  (∀ w, vis w = some none → vis0 w = some none) ∧
  (∀ w, safeP w = true → vis w = vis0 w)

theorem visInv_init (safeP explP : Node → Bool) (q : List Node) :
    VisInv safeP explP (vis0Of q) (vis0Of q) := by
  refine ⟨fun w e h => ?_, fun w h => h, fun w _ => rfl⟩
  unfold vis0Of at h
  by_cases hq : q.contains w = true <;> simp [hq] at h

theorem visInv_insert {safeP explP : Node → Bool} {vis0 vis : BfsMap}
    (h : VisInv safeP explP vis0 vis) (e : Edge)
    (h1 : safeP e.caller = false) (h2 : explP e.caller = false) :
    VisInv safeP explP vis0 (mapInsert vis e.caller (some e)) := by
  obtain ⟨ha, hb, hc⟩ := h
  refine ⟨fun w e' hw => ?_, fun w hw => ?_, fun w hw => ?_⟩
  · unfold mapInsert at hw
    by_cases hww : w = e.caller
    · subst hww
      rw [if_pos rfl] at hw
      cases Option.some.inj (Option.some.inj hw)
      exact ⟨rfl, h1, h2⟩
    · rw [if_neg hww] at hw
      exact ha w e' hw
  · unfold mapInsert at hw
    by_cases hww : w = e.caller
    · rw [if_pos hww] at hw; cases Option.some.inj hw
    · rw [if_neg hww] at hw; exact hb w hw
  · unfold mapInsert
    by_cases hww : w = e.caller
    · subst hww; rw [hw] at h1; cases h1
    · rw [if_neg hww]; exact hc w hw

theorem bfsEdgeStep_inv {g : Graph} {queried : Str → Bool}
    {safeP explP : Node → Bool} {c : Capability} {vis0 : BfsMap}
    {acc : BfsMap × List Node × List CallRec} {e : Edge}
    (h : VisInv safeP explP vis0 acc.1) :
    VisInv safeP explP vis0 (bfsEdgeStep g queried safeP explP c acc e).1 := by
  simp only [bfsEdgeStep]
  cases g.fn e.caller with
  | none => exact h
  | some f =>
    by_cases h1 : safeP e.caller = true
    · simp only [h1, if_true]; exact h
    · simp only [h1, if_false]
      by_cases h2 : (acc.1 e.caller).isSome = true
      · simp only [h2, if_true]; exact h
      · simp only [h2, if_false]
        by_cases h3 : explP e.caller = true
        · simp only [h3, if_true]; exact h
        · simp only [h3, if_false]
          exact visInv_insert h e (Bool.not_eq_true _ ▸ h1)
            (Bool.not_eq_true _ ▸ h3)

theorem bfsEdgeStep_fold_inv {g : Graph} {queried : Str → Bool}
    {safeP explP : Node → Bool} {c : Capability} {vis0 : BfsMap} :
    ∀ (edges : List Edge) (acc : BfsMap × List Node × List CallRec),
      VisInv safeP explP vis0 acc.1 →
      VisInv safeP explP vis0
        ((edges.foldl (bfsEdgeStep g queried safeP explP c) acc)).1
  | [], _, h => h
  | _ :: edges, _, h =>
    bfsEdgeStep_fold_inv edges _ (bfsEdgeStep_inv h)

theorem bfsLoop_inv (cl : Classifier) (g : Graph) (queried : Str → Bool)
    (safeP explP : Node → Bool) (c : Capability) (vis0 : BfsMap) :
    ∀ (fuel : Nat) (q : List Node) (vis : BfsMap),
      VisInv safeP explP vis0 vis →
      VisInv safeP explP vis0
        (bfsLoop cl g queried safeP explP c fuel q vis).2
  | 0, _, _, h => h
  | _ + 1, [], _, h => h
  | fuel + 1, v :: q, vis, h => by
    rw [show bfsLoop cl g queried safeP explP c (fuel + 1) (v :: q) vis =
        (let incoming := sortEdges ((g.ins v).filter cl.includeCall)
         let st := incoming.foldl (bfsEdgeStep g queried safeP explP c)
           (vis, [], [])
         let rest := bfsLoop cl g queried safeP explP c fuel (q ++ st.2.1) st.1
         (st.2.2 ++ rest.1, rest.2)) from rfl]
    exact bfsLoop_inv cl g queried safeP explP c vis0 fuel _ _
      (bfsEdgeStep_fold_inv _ _ h)

/-- The same invariant for `searchBackwardsFromCapabilities`, whose edge
filter removes safe and explicit callers before insertion. -/
theorem sbFold_inv {safeP explP : Node → Bool} {vis0 : BfsMap} :
    ∀ (edges : List Edge) (acc : BfsMap × List Node)
      (_ : ∀ e ∈ edges, safeP e.caller = false ∧ explP e.caller = false)
      (_ : VisInv safeP explP vis0 acc.1),
      VisInv safeP explP vis0
        ((edges.foldl
          (fun (acc : BfsMap × List Node) e =>
            if (acc.1 e.caller).isSome then acc
            else (mapInsert acc.1 e.caller (some e), acc.2 ++ [e.caller]))
          acc)).1
  | [], _, _, h => h
  | e :: edges, acc, hedges, h => by
    rw [List.foldl_cons]
    refine sbFold_inv edges _ (fun e' he' => hedges e' (List.mem_cons_of_mem e he')) ?_
    by_cases h2 : (acc.1 e.caller).isSome = true
    · simp only [h2, if_true]; exact h
    · simp only [h2, if_false]
      exact visInv_insert h e (hedges e (List.mem_cons_self e edges)).1
        (hedges e (List.mem_cons_self e edges)).2

theorem sbLoop_inv (cl : Classifier) (g : Graph)
    (safeP explP : Node → Bool) (vis0 : BfsMap) :
    ∀ (fuel : Nat) (q : List Node) (vis : BfsMap),
      VisInv safeP explP vis0 vis →
      VisInv safeP explP vis0 (sbLoop cl g safeP explP fuel q vis)
  | 0, _, _, h => h
  | _ + 1, [], _, h => h
  | fuel + 1, v :: q, vis, h => by
    rw [show sbLoop cl g safeP explP (fuel + 1) (v :: q) vis =
        (let incoming := sortEdges ((g.ins v).filter
           (fun e => cl.includeCall e && !safeP e.caller && !explP e.caller))
         let st := incoming.foldl
           (fun (acc : BfsMap × List Node) e =>
             if (acc.1 e.caller).isSome then acc
             else (mapInsert acc.1 e.caller (some e), acc.2 ++ [e.caller]))
           (vis, [])
         sbLoop cl g safeP explP fuel (q ++ st.2) st.1) from rfl]
    refine sbLoop_inv cl g safeP explP vis0 fuel _ _ (sbFold_inv _ _ ?_ h)
    intro e he
    unfold sortEdges at he
    rw [(List.perm_insertionSort edgeLe _).mem_iff, List.mem_filter] at he
    have hpred := he.2
    simp only [Bool.and_eq_true, Bool.not_eq_true'] at hpred
    exact ⟨hpred.1.2, hpred.2⟩

theorem mem_sortNodes {l : List Node} {v : Node} :
    v ∈ sortNodes l ↔ v ∈ l := by
  unfold sortNodes
  exact (List.perm_insertionSort _ _).mem_iff

/-- C1 (amended): a node classified safe by the oracle is in no explicit
per-capability nodeset; the merger may add it to a derived capability's
set, but it is excluded from every per-capability BFS root set of
`forEachPath` and is never visited by the reverse search, so it is never
reported. -/
theorem safe_dominates (g : Graph) (uFns : List Node) (cfg : Config)
    (v : Node) (c : Capability) (hs : v ∈ safeOf g cfg) :
    v ∉ explicitOf g cfg c ∧
    v ∉ capRoots (mergedOf g uFns cfg c)
          (fun w => (safeOf g cfg).contains w) ∧
    ∀ (queried : Str → Bool) (fuel : Nat),
      capVisitedOf g uFns queried cfg fuel c v = none := by
  have hcontains : (safeOf g cfg).contains v = true := List.elem_iff.mpr hs
  have hroot : v ∉ capRoots (mergedOf g uFns cfg c)
      (fun w => (safeOf g cfg).contains w) := by
    intro hr
    obtain ⟨-, hfalse⟩ := mem_capRoots.mp hr
    rw [hfalse] at hcontains
    cases hcontains
  refine ⟨safe_not_explicit hs, hroot, fun queried fuel => ?_⟩
  have hinv := bfsLoop_inv cfg.classifier g queried
    (fun w => (safeOf g cfg).contains w)
    (fun w => (explicitSetOf g uFns cfg).contains w) c
    (vis0Of (capRoots (mergedOf g uFns cfg c)
      (fun w => (safeOf g cfg).contains w))) fuel
    (capRoots (mergedOf g uFns cfg c) (fun w => (safeOf g cfg).contains w))
    (vis0Of (capRoots (mergedOf g uFns cfg c)
      (fun w => (safeOf g cfg).contains w)))
    (visInv_init _ _ _)
  have hcap : capVisitedOf g uFns queried cfg fuel c =
      (bfsLoop cfg.classifier g queried
        (fun w => (safeOf g cfg).contains w)
        (fun w => (explicitSetOf g uFns cfg).contains w) c fuel
        (capRoots (mergedOf g uFns cfg c)
          (fun w => (safeOf g cfg).contains w))
        (vis0Of (capRoots (mergedOf g uFns cfg c)
          (fun w => (safeOf g cfg).contains w)))).2 := rfl
  rw [hcap, hinv.2.2 v hcontains]
  unfold vis0Of
  have hq : (capRoots (mergedOf g uFns cfg c)
      (fun w => (safeOf g cfg).contains w)).contains v = false := by
    rw [Bool.eq_false_iff]
    exact fun hc => hroot (List.elem_iff.mp hc)
  rw [hq]
  rfl

/-- C1 witness: the amended theorem applied to the fixture's safe assembly
node. -/
theorem safe_dominates_witness :
    2 ∈ safeOf fixGraph fixConfig ∧
      (2 ∉ explicitOf fixGraph fixConfig .arbitraryExecution ∧
        2 ∉ capRoots (mergedOf fixGraph [] fixConfig .arbitraryExecution)
              (fun w => (safeOf fixGraph fixConfig).contains w) ∧
        ∀ (queried : Str → Bool) (fuel : Nat),
          capVisitedOf fixGraph [] queried fixConfig fuel
            .arbitraryExecution 2 = none) :=
  ⟨by decide,
    safe_dominates fixGraph [] fixConfig 2 .arbitraryExecution (by decide)⟩

/-- C3: in the per-capability reverse BFS of `forEachPath`, every
predecessor edge recorded in the BFS state has its caller equal to the
visited node and that node outside both the safe set and the
explicitly-classified set; a safe node is never visited at all; a node
holding the root state is a genuine BFS root — in the merged set of the
capability being searched, not safe, and, if explicitly classified, a root
for its own capability.  The same holds of
`searchBackwardsFromCapabilities`: predecessor edges never have safe or
explicitly-classified callers, and root states only occur at roots. -/
theorem bfs_never_through_safe_or_explicit (g : Graph) (uFns : List Node)
    (queried : Str → Bool) (cfg : Config) (fuel : Nat) (c : Capability) :
    (∀ w e, capVisitedOf g uFns queried cfg fuel c w = some (some e) →
        e.caller = w ∧ (safeOf g cfg).contains w = false ∧
          (explicitSetOf g uFns cfg).contains w = false) ∧
    (∀ w, (safeOf g cfg).contains w = true →
        capVisitedOf g uFns queried cfg fuel c w = none) ∧
    (∀ w, capVisitedOf g uFns queried cfg fuel c w = some none →
        w ∈ mergedOf g uFns cfg c ∧ (safeOf g cfg).contains w = false ∧
          ((explicitSetOf g uFns cfg).contains w = true →
            w ∈ explicitOf g cfg c)) ∧
    (∀ (m : Capability → List Node) (safeP explP : Node → Bool) (w : Node)
        (e : Edge),
        searchBackwardsFromCapabilities g m safeP explP cfg.classifier fuel w =
          some (some e) →
        e.caller = w ∧ safeP w = false ∧ explP w = false) ∧
    (∀ (m : Capability → List Node) (safeP explP : Node → Bool) (w : Node),
        searchBackwardsFromCapabilities g m safeP explP cfg.classifier fuel w =
          some none →
        w ∈ Capability.all.flatMap m ∧ safeP w = false) := by
  have hinv := bfsLoop_inv cfg.classifier g queried
    (fun v => (safeOf g cfg).contains v)
    (fun v => (explicitSetOf g uFns cfg).contains v) c
    (vis0Of (capRoots (mergedOf g uFns cfg c)
      (fun v => (safeOf g cfg).contains v))) fuel
    (capRoots (mergedOf g uFns cfg c) (fun v => (safeOf g cfg).contains v))
    (vis0Of (capRoots (mergedOf g uFns cfg c)
      (fun v => (safeOf g cfg).contains v)))
    (visInv_init _ _ _)
  have hcap : capVisitedOf g uFns queried cfg fuel c =
      (bfsLoop cfg.classifier g queried
        (fun v => (safeOf g cfg).contains v)
        (fun v => (explicitSetOf g uFns cfg).contains v) c fuel
        (capRoots (mergedOf g uFns cfg c)
          (fun v => (safeOf g cfg).contains v))
        (vis0Of (capRoots (mergedOf g uFns cfg c)
          (fun v => (safeOf g cfg).contains v)))).2 := rfl
  have hroot0 : ∀ w, (safeOf g cfg).contains w = true →
      vis0Of (capRoots (mergedOf g uFns cfg c)
        (fun v => (safeOf g cfg).contains v)) w = none := by
    intro w hw
    unfold vis0Of
    by_cases hq : (capRoots (mergedOf g uFns cfg c)
        (fun v => (safeOf g cfg).contains v)).contains w = true
    · obtain ⟨-, hfalse⟩ := mem_capRoots.mp (List.elem_iff.mp hq)
      rw [hw] at hfalse; cases hfalse
    · simp only [Bool.not_eq_true] at hq
      rw [hq]; rfl
  refine ⟨fun w e h => hinv.1 w e (hcap ▸ h),
    fun w hw => ?_, fun w hw => ?_, fun m safeP explP w e h => ?_,
    fun m safeP explP w h => ?_⟩
  · rw [hcap, hinv.2.2 w hw]
    exact hroot0 w hw
  · rw [hcap] at hw
    have h0 := hinv.2.1 w hw
    unfold vis0Of at h0
    by_cases hq : (capRoots (mergedOf g uFns cfg c)
        (fun v => (safeOf g cfg).contains v)).contains w = true
    · obtain ⟨hm, hsafe⟩ := mem_capRoots.mp (List.elem_iff.mp hq)
      refine ⟨hm, hsafe, fun hexp => ?_⟩
      rcases mem_mergedOf.mp hm with h | ⟨-, hfalse⟩
      · exact h
      · rw [hexp] at hfalse; cases hfalse
    · simp only [Bool.not_eq_true] at hq
      rw [hq] at h0; cases h0
  · have hsb := sbLoop_inv cfg.classifier g safeP explP
      (vis0Of (sortNodes ((Capability.all.flatMap m).filter
        (fun v => !safeP v)))) fuel
      (sortNodes ((Capability.all.flatMap m).filter (fun v => !safeP v)))
      (vis0Of (sortNodes ((Capability.all.flatMap m).filter
        (fun v => !safeP v))))
      (visInv_init _ _ _)
    exact hsb.1 w e h
  · have hsb := sbLoop_inv cfg.classifier g safeP explP
      (vis0Of (sortNodes ((Capability.all.flatMap m).filter
        (fun v => !safeP v)))) fuel
      (sortNodes ((Capability.all.flatMap m).filter (fun v => !safeP v)))
      (vis0Of (sortNodes ((Capability.all.flatMap m).filter
        (fun v => !safeP v))))
      (visInv_init _ _ _)
    have h0 := hsb.2.1 w h
    unfold vis0Of at h0
    by_cases hq : (sortNodes ((Capability.all.flatMap m).filter
        (fun v => !safeP v))).contains w = true
    · have hmem := mem_sortNodes.mp (List.elem_iff.mp hq)
      rw [List.mem_filter] at hmem
      exact ⟨hmem.1, by simpa using hmem.2⟩
    · simp only [Bool.not_eq_true] at hq
      rw [hq] at h0; cases h0

/-- C3 witness: in the fixture's files search, `q.Caller` (0) is visited
through the edge to `os.ReadFile` and is neither safe nor explicitly
classified. -/
theorem bfs_never_through_safe_or_explicit_witness :
    capVisitedOf fixGraph [] fixQueried fixConfig 9 .files 0 =
        some (some ⟨0, 1⟩) ∧
      ((⟨0, 1⟩ : Edge).caller = 0 ∧
        (safeOf fixGraph fixConfig).contains 0 = false ∧
        (explicitSetOf fixGraph [] fixConfig).contains 0 = false) :=
  ⟨by decide,
    (bfs_never_through_safe_or_explicit fixGraph [] fixQueried fixConfig 9
      .files).1 0 ⟨0, 1⟩ (by decide)⟩

/-! ## Claim C6: determinism — map iteration order does not affect output -/

theorem contains_eq_of_perm {l₁ l₂ : List Node} (h : List.Perm l₁ l₂)
    (v : Node) : l₁.contains v = l₂.contains v := by
  by_cases hv : v ∈ l₁
  · have e1 : l₁.contains v = true := List.elem_iff.mpr hv
    have e2 : l₂.contains v = true := List.elem_iff.mpr (h.mem_iff.mp hv)
    rw [e1, e2]
  · have h2 : v ∉ l₂ := fun hx => hv (h.mem_iff.mpr hx)
    have e1 : l₁.contains v = false := by
      rw [Bool.eq_false_iff]
      exact fun hc => hv (List.elem_iff.mp hc)
    have e2 : l₂.contains v = false := by
      rw [Bool.eq_false_iff]
      exact fun hc => h2 (List.elem_iff.mp hc)
    rw [e1, e2]

theorem sortNodes_eq_of_perm {l₁ l₂ : List Node} (h : List.Perm l₁ l₂) :
    sortNodes l₁ = sortNodes l₂ := by
  unfold sortNodes
  exact List.eq_of_perm_of_sorted
    ((List.perm_insertionSort _ _).trans
      (h.trans (List.perm_insertionSort _ _).symm))
    (List.sorted_insertionSort _ _) (List.sorted_insertionSort _ _)

theorem flatMap_perm_pointwise {f₁ f₂ : Capability → List Node}
    (h : ∀ c, List.Perm (f₁ c) (f₂ c)) :
    ∀ l : List Capability, List.Perm (l.flatMap f₁) (l.flatMap f₂)
  | [] => List.Perm.refl _
  | c :: l => by
    simp only [List.flatMap_cons]
    exact (h c).append (flatMap_perm_pointwise h l)

theorem isEmpty_eq_of_perm {l₁ l₂ : List Node} (h : List.Perm l₁ l₂) :
    l₁.isEmpty = l₂.isEmpty := by
  cases l₁ with
  | nil => rw [h.nil_eq]
  | cons x xs =>
    cases l₂ with
    | nil => cases (List.cons_ne_nil x xs) h.eq_nil
    | cons y ys => rfl

/-- `bfsLoop` reads the graph only through `fn` and `ins`. -/
theorem bfsLoop_graph_eq (cl : Classifier) (n₁ n₂ : List Node)
    (fn : Node → Option FnData) (ins : Node → List Edge)
    (queried : Str → Bool) (safeP explP : Node → Bool) (c : Capability) :
    ∀ (fuel : Nat) (q : List Node) (vis : BfsMap),
      bfsLoop cl (Graph.mk n₁ fn ins) queried safeP explP c fuel q vis =
        bfsLoop cl (Graph.mk n₂ fn ins) queried safeP explP c fuel q vis
  | 0, _, _ => rfl
  | _ + 1, [], _ => rfl
  | fuel + 1, v :: q, vis => by
    rw [show bfsLoop cl (Graph.mk n₁ fn ins) queried safeP explP c (fuel + 1)
          (v :: q) vis =
        ((((sortEdges ((ins v).filter cl.includeCall)).foldl
            (bfsEdgeStep (Graph.mk n₂ fn ins) queried safeP explP c)
            (vis, [], [])).2.2 ++
          (bfsLoop cl (Graph.mk n₁ fn ins) queried safeP explP c fuel
            (q ++ ((sortEdges ((ins v).filter cl.includeCall)).foldl
              (bfsEdgeStep (Graph.mk n₂ fn ins) queried safeP explP c)
              (vis, [], [])).2.1)
            ((sortEdges ((ins v).filter cl.includeCall)).foldl
              (bfsEdgeStep (Graph.mk n₂ fn ins) queried safeP explP c)
              (vis, [], [])).1).1),
         (bfsLoop cl (Graph.mk n₁ fn ins) queried safeP explP c fuel
            (q ++ ((sortEdges ((ins v).filter cl.includeCall)).foldl
              (bfsEdgeStep (Graph.mk n₂ fn ins) queried safeP explP c)
              (vis, [], [])).2.1)
            ((sortEdges ((ins v).filter cl.includeCall)).foldl
              (bfsEdgeStep (Graph.mk n₂ fn ins) queried safeP explP c)
              (vis, [], [])).1).2) from rfl]
    rw [show bfsLoop cl (Graph.mk n₂ fn ins) queried safeP explP c (fuel + 1)
          (v :: q) vis =
        ((((sortEdges ((ins v).filter cl.includeCall)).foldl
            (bfsEdgeStep (Graph.mk n₂ fn ins) queried safeP explP c)
            (vis, [], [])).2.2 ++
          (bfsLoop cl (Graph.mk n₂ fn ins) queried safeP explP c fuel
            (q ++ ((sortEdges ((ins v).filter cl.includeCall)).foldl
              (bfsEdgeStep (Graph.mk n₂ fn ins) queried safeP explP c)
              (vis, [], [])).2.1)
            ((sortEdges ((ins v).filter cl.includeCall)).foldl
              (bfsEdgeStep (Graph.mk n₂ fn ins) queried safeP explP c)
              (vis, [], [])).1).1),
         (bfsLoop cl (Graph.mk n₂ fn ins) queried safeP explP c fuel
            (q ++ ((sortEdges ((ins v).filter cl.includeCall)).foldl
              (bfsEdgeStep (Graph.mk n₂ fn ins) queried safeP explP c)
              (vis, [], [])).2.1)
            ((sortEdges ((ins v).filter cl.includeCall)).foldl
              (bfsEdgeStep (Graph.mk n₂ fn ins) queried safeP explP c)
              (vis, [], [])).1).2) from rfl]
    rw [bfsLoop_graph_eq cl n₁ n₂ fn ins queried safeP explP c fuel _ _]

/-- `dedupByPackage` reads the graph only through `fn`. -/
theorem dedupByPackage_graph_eq (n₁ n₂ : List Node)
    (fn : Node → Option FnData) (ins : Node → List Edge) :
    ∀ (l : List CapInfo) (seen : List (Capability × Option Str)),
      dedupByPackage (Graph.mk n₁ fn ins) seen l =
        dedupByPackage (Graph.mk n₂ fn ins) seen l
  | [], _ => rfl
  | r :: rest, seen => by
    rw [show dedupByPackage (Graph.mk n₁ fn ins) seen (r :: rest) =
        (if seen.contains (dedupKey (Graph.mk n₂ fn ins) r) then
          dedupByPackage (Graph.mk n₁ fn ins) seen rest
         else r :: dedupByPackage (Graph.mk n₁ fn ins)
           (dedupKey (Graph.mk n₂ fn ins) r :: seen) rest) from rfl]
    rw [show dedupByPackage (Graph.mk n₂ fn ins) seen (r :: rest) =
        (if seen.contains (dedupKey (Graph.mk n₂ fn ins) r) then
          dedupByPackage (Graph.mk n₂ fn ins) seen rest
         else r :: dedupByPackage (Graph.mk n₂ fn ins)
           (dedupKey (Graph.mk n₂ fn ins) r :: seen) rest) from rfl]
    by_cases hk : seen.contains (dedupKey (Graph.mk n₂ fn ins) r) = true
    · rw [if_pos hk, if_pos hk, dedupByPackage_graph_eq n₁ n₂ fn ins rest seen]
    · rw [if_neg hk, if_neg hk, dedupByPackage_graph_eq n₁ n₂ fn ins rest _]

/-- The callback sequence of `forEachPath` is invariant under the
iteration orders of the Go maps: any permutation of the node list and of
the unsafe-pointer-function set yields the identical callback sequence. -/
theorem forEachPathCalls_perm (fn : Node → Option FnData)
    (ins : Node → List Edge) (n₁ n₂ u₁ u₂ : List Node)
    (queried : Str → Bool) (cfg : Config) (fuel : Nat)
    (hn : List.Perm n₁ n₂) (hu : List.Perm u₁ u₂) :
    forEachPathCalls (Graph.mk n₁ fn ins) u₁ queried cfg fuel =
      forEachPathCalls (Graph.mk n₂ fn ins) u₂ queried cfg fuel := by
  have hsafe : List.Perm (safeOf (Graph.mk n₁ fn ins) cfg)
      (safeOf (Graph.mk n₂ fn ins) cfg) := hn.filterMap _
  have hsafeP : (fun v => (safeOf (Graph.mk n₁ fn ins) cfg).contains v) =
      (fun v => (safeOf (Graph.mk n₂ fn ins) cfg).contains v) :=
    funext (contains_eq_of_perm hsafe)
  have hexp : ∀ c, List.Perm (explicitOf (Graph.mk n₁ fn ins) cfg c)
      (explicitOf (Graph.mk n₂ fn ins) cfg c) := by
    intro c
    by_cases hc : c = .safe ∨ c = .unspecified
    · show List.Perm (if c = .safe ∨ c = .unspecified then [] else _)
        (if c = .safe ∨ c = .unspecified then [] else _)
      rw [if_pos hc, if_pos hc]
    · show List.Perm (if c = .safe ∨ c = .unspecified then [] else _)
        (if c = .safe ∨ c = .unspecified then [] else _)
      rw [if_neg hc, if_neg hc]
      exact hn.filterMap _
  have hextra : ∀ c, List.Perm (extraOf (Graph.mk n₁ fn ins) u₁ cfg c)
      (extraOf (Graph.mk n₂ fn ins) u₂ cfg c) := by
    intro c
    unfold extraOf
    by_cases hd : cfg.disableBuiltin = true
    · rw [if_pos hd, if_pos hd]
    · rw [if_neg hd, if_neg hd]
      cases c <;>
        first
          | exact List.Perm.refl _
          | exact hn.filterMap _
          | (show List.Perm (u₁.filter (fun v => n₁.contains v))
                (u₂.filter (fun v => n₂.contains v))
             rw [funext (contains_eq_of_perm hn)]
             exact hu.filter _)
  have hexpSet : List.Perm (explicitSetOf (Graph.mk n₁ fn ins) u₁ cfg)
      (explicitSetOf (Graph.mk n₂ fn ins) u₂ cfg) :=
    flatMap_perm_pointwise hexp Capability.all
  have hmerged : ∀ c, List.Perm (mergedOf (Graph.mk n₁ fn ins) u₁ cfg c)
      (mergedOf (Graph.mk n₂ fn ins) u₂ cfg c) := by
    intro c
    show List.Perm
      (explicitOf (Graph.mk n₁ fn ins) cfg c ++
        (extraOf (Graph.mk n₁ fn ins) u₁ cfg c).filter
          (fun v => !(explicitSetOf (Graph.mk n₁ fn ins) u₁ cfg).contains v))
      (explicitOf (Graph.mk n₂ fn ins) cfg c ++
        (extraOf (Graph.mk n₂ fn ins) u₂ cfg c).filter
          (fun v => !(explicitSetOf (Graph.mk n₂ fn ins) u₂ cfg).contains v))
    rw [show (fun v => !(explicitSetOf (Graph.mk n₁ fn ins) u₁ cfg).contains v) =
        (fun v => !(explicitSetOf (Graph.mk n₂ fn ins) u₂ cfg).contains v) from
      funext (fun v => by rw [contains_eq_of_perm hexpSet])]
    exact (hexp c).append ((hextra c).filter _)
  have hcaps : capsOf (Graph.mk n₁ fn ins) u₁ cfg =
      capsOf (Graph.mk n₂ fn ins) u₂ cfg := by
    unfold capsOf
    rw [show (fun c => !(mergedOf (Graph.mk n₁ fn ins) u₁ cfg c).isEmpty) =
        (fun c => !(mergedOf (Graph.mk n₂ fn ins) u₂ cfg c).isEmpty) from
      funext (fun c => by rw [isEmpty_eq_of_perm (hmerged c)])]
  have hroots : ∀ c,
      capRoots (mergedOf (Graph.mk n₁ fn ins) u₁ cfg c)
        (fun v => (safeOf (Graph.mk n₂ fn ins) cfg).contains v) =
      capRoots (mergedOf (Graph.mk n₂ fn ins) u₂ cfg c)
        (fun v => (safeOf (Graph.mk n₂ fn ins) cfg).contains v) := by
    intro c
    unfold capRoots
    exact sortNodes_eq_of_perm ((hmerged c).filter _)
  have hcapCalls : ∀ c,
      capCallsOf (Graph.mk n₁ fn ins) u₁ queried cfg fuel c =
        capCallsOf (Graph.mk n₂ fn ins) u₂ queried cfg fuel c := by
    intro c
    show capPhase1 (Graph.mk n₁ fn ins) queried c
        (capRoots (mergedOf (Graph.mk n₁ fn ins) u₁ cfg c)
          (fun v => (safeOf (Graph.mk n₁ fn ins) cfg).contains v))
        (vis0Of (capRoots (mergedOf (Graph.mk n₁ fn ins) u₁ cfg c)
          (fun v => (safeOf (Graph.mk n₁ fn ins) cfg).contains v))) ++
      (bfsLoop cfg.classifier (Graph.mk n₁ fn ins) queried
        (fun v => (safeOf (Graph.mk n₁ fn ins) cfg).contains v)
        (fun v => (explicitSetOf (Graph.mk n₁ fn ins) u₁ cfg).contains v) c
        fuel
        (capRoots (mergedOf (Graph.mk n₁ fn ins) u₁ cfg c)
          (fun v => (safeOf (Graph.mk n₁ fn ins) cfg).contains v))
        (vis0Of (capRoots (mergedOf (Graph.mk n₁ fn ins) u₁ cfg c)
          (fun v => (safeOf (Graph.mk n₁ fn ins) cfg).contains v)))).1 = _
    rw [hsafeP]
    rw [show (fun v => (explicitSetOf (Graph.mk n₁ fn ins) u₁ cfg).contains v) =
        (fun v => (explicitSetOf (Graph.mk n₂ fn ins) u₂ cfg).contains v) from
      funext (contains_eq_of_perm hexpSet)]
    rw [hroots c]
    rw [show capPhase1 (Graph.mk n₁ fn ins) = capPhase1 (Graph.mk n₂ fn ins)
      from rfl]
    rw [bfsLoop_graph_eq cfg.classifier n₁ n₂ fn ins queried _ _ c fuel _ _]
    rfl
  unfold forEachPathCalls
  rw [hcaps, funext hcapCalls]

/-- C6: determinism of the analysis.  The only run-to-run variation for
fixed input packages and a fixed classifier is the iteration order of the
Go maps (`graph.Nodes` and the derived sets); over any two iteration
orders — any permutations of the node list and of the
unsafe-pointer-function set — the sequence of aggregator callbacks (same
capabilities, same nodes, same BFS predecessor states, same order) and the
`GetCapabilityInfo` output list are identical. -/
theorem analysis_deterministic (fn : Node → Option FnData)
    (ins : Node → List Edge) (n₁ n₂ u₁ u₂ : List Node)
    (queried : Str → Bool) (cfg : Config) (fuel : Nat)
    (hn : List.Perm n₁ n₂) (hu : List.Perm u₁ u₂) :
    forEachPathCalls (Graph.mk n₁ fn ins) u₁ queried cfg fuel =
      forEachPathCalls (Graph.mk n₂ fn ins) u₂ queried cfg fuel ∧
    getCapabilityInfoList (Graph.mk n₁ fn ins) u₁ queried cfg fuel =
      getCapabilityInfoList (Graph.mk n₂ fn ins) u₂ queried cfg fuel := by
  refine ⟨forEachPathCalls_perm fn ins n₁ n₂ u₁ u₂ queried cfg fuel hn hu, ?_⟩
  unfold getCapabilityInfoList
  by_cases hi : (setDefaultGranularity cfg).granularity = .intermediate
  · rw [if_pos hi, if_pos hi]
  · rw [if_neg hi, if_neg hi]
    rw [forEachPathCalls_perm fn ins n₁ n₂ u₁ u₂ queried
      (setDefaultGranularity cfg) fuel hn hu]
    rw [show buildCapInfo (Graph.mk n₁ fn ins) (setDefaultGranularity cfg)
          fuel =
        buildCapInfo (Graph.mk n₂ fn ins) (setDefaultGranularity cfg) fuel
      from rfl]
    by_cases hp : (setDefaultGranularity cfg).granularity = .package
    · rw [if_pos hp, if_pos hp, dedupByPackage_graph_eq n₁ n₂ fn ins _ _]
    · rw [if_neg hp, if_neg hp]

/-- C6 witness: the theorem applied to the fixture graph with its node
list reversed. -/
theorem analysis_deterministic_witness :
    List.Perm [0, 1, 2, 3, 4] [4, 3, 2, 1, 0] ∧
    (forEachPathCalls (Graph.mk [0, 1, 2, 3, 4] fixGraph.fn fixGraph.ins) []
        fixQueried fixConfig 9 =
      forEachPathCalls (Graph.mk [4, 3, 2, 1, 0] fixGraph.fn fixGraph.ins) []
        fixQueried fixConfig 9 ∧
    getCapabilityInfoList (Graph.mk [0, 1, 2, 3, 4] fixGraph.fn fixGraph.ins)
        [] fixQueried fixConfig 9 =
      getCapabilityInfoList (Graph.mk [4, 3, 2, 1, 0] fixGraph.fn fixGraph.ins)
        [] fixQueried fixConfig 9) :=
  ⟨(List.reverse_perm [0, 1, 2, 3, 4]).symm,
    analysis_deterministic fixGraph.fn fixGraph.ins [0, 1, 2, 3, 4]
      [4, 3, 2, 1, 0] [] [] fixQueried fixConfig 9
      (List.reverse_perm [0, 1, 2, 3, 4]).symm (List.Perm.refl [])⟩
